import Mathlib

/-!
Verification development for the `scythe` mini SQL engine
(`src/parser.rs`, `src/storage.rs`): a shallow embedding of the value model,
the condition evaluator, the tokenizer, the condition parser and the storage
engine, together with theorems about the specified behaviour.

Modelling conventions, fixed once for the whole file:

* Rust `i64` is modelled as `Int`; no property proved below depends on 64-bit
  wraparound, and all concrete inputs are far from the `i64` boundaries.
* The `f64` payload of `Value::Real` is modelled as an abstract integer code
  with structural equality and a total order.  IEEE float behaviour (NaN,
  signed zero, rounding) is not modelled; no property proved below involves
  `Real` values.
* String byte positions in the tokenizer are character positions; all
  concrete inputs used are ASCII, where the two coincide.
* A table's data file is modelled as the list of its rows (the file holds one
  serialized row per line); the byte offset of a row's line is modelled by
  the row's line index.  An index file is modelled as its list of
  `(key, offset)` entries; the JSON string rendering of a key used by the
  code is modelled by the key's value list itself (the rendering is injective
  on the modelled values, so string equality of keys is value-list equality).
* Rust's `sort_by` is documented as a stable sort; it is modelled as a stable
  insertion sort, which agrees with every stable sort for the total preorder
  comparators that arise below.
* Loops that advance a numeric cursor through the input are modelled with an
  explicit fuel argument that provably dominates the iteration count (every
  iteration consumes at least one unit of input, and the initial fuel is
  `length + 1`).
* `anyhow` error strings are modelled as a structured error type with one
  constructor per distinct error site, carrying the data interpolated into
  the message.
* Storage mutation (`insert_row`) returns the result together with the state
  as it is when the function returns, so that an early `return Err` leaves
  the state exactly as far along as the Rust code would have.
-/

namespace Scythe

instance {ε α : Type} [DecidableEq ε] [DecidableEq α] : DecidableEq (Except ε α)
  | .ok a, .ok b =>
    if h : a = b then .isTrue (by rw [h]) else .isFalse (by intro hc; cases hc; exact h rfl)
  | .ok _, .error _ => .isFalse (by intro hc; cases hc)
  | .error _, .ok _ => .isFalse (by intro hc; cases hc)
  | .error e, .error f =>
    if h : e = f then .isTrue (by rw [h]) else .isFalse (by intro hc; cases hc; exact h rfl)

/-! ## Value and schema model (storage.rs) -/

/-- storage.rs `DataType`. -/
inductive DataType
  | Integer
  | Text
  | Boolean
  | Real
deriving DecidableEq

/-- storage.rs `Value`.  The `Real` payload is an abstract code for the
`f64` bits (see the header). -/
inductive Value
  | Null
  | Integer (i : Int)
  | Text (s : String)
  | Boolean (b : Bool)
  | Real (r : Int)
deriving DecidableEq

/-- storage.rs `Column`. -/
structure Column where
  name : String
  data_type : DataType
deriving DecidableEq

/-- Three-way comparison of `Int`, the model of `i64::partial_cmp` (and of the
abstract `Real` code ordering). -/
def cmpInt (a b : Int) : Ordering :=
  if a < b then .lt else if b < a then .gt else .eq

/-- Three-way comparison of `Bool`, the model of `bool::partial_cmp`
(`false < true`). -/
def cmpBool : Bool → Bool → Ordering
  | false, true => .lt
  | true, false => .gt
  | _, _ => .eq

/-- Three-way comparison of `Char`, the model of byte comparison (code point
order, which agrees with byte order under UTF-8). -/
def cmpChar (a b : Char) : Ordering :=
  cmpInt (a.toNat : Int) (b.toNat : Int)

/-- Lexicographic three-way comparison of character lists, the model of
`str::partial_cmp`. -/
def cmpCharList : List Char → List Char → Ordering
  | [], [] => .eq
  | [], _ :: _ => .lt
  | _ :: _, [] => .gt
  | a :: as, b :: bs =>
    match cmpChar a b with
    | .eq => cmpCharList as bs
    | o => o

/-- Three-way comparison of `String`, the model of `String::partial_cmp`. -/
def cmpString (a b : String) : Ordering := cmpCharList a.data b.data

/-- storage.rs `impl PartialOrd for Value` (line 66): same-variant pairs
compare by payload, `Null` compares below everything, cross-type pairs are
incomparable. -/
def Value.partial_cmp : Value → Value → Option Ordering
  | .Integer a, .Integer b => some (cmpInt a b)
  | .Real a, .Real b => some (cmpInt a b)
  | .Text a, .Text b => some (cmpString a b)
  | .Boolean a, .Boolean b => some (cmpBool a b)
  | .Null, .Null => some .eq
  | .Null, _ => some .lt
  | _, .Null => some .gt
  | _, _ => none

/-- storage.rs `impl Ord for Value` (line 81):
`partial_cmp(..).unwrap_or(Ordering::Less)`. -/
def Value.cmp (a b : Value) : Ordering := (a.partial_cmp b).getD .lt

/-- storage.rs `impl Display for Value` (line 54). -/
def Value.display : Value → String
  | .Integer i => toString i
  | .Text s => s
  | .Boolean b => toString b
  | .Real r => toString r
  | .Null => "NULL"

/-- Whether `needle` occurs as a contiguous run inside `hay`; the model of
`str::contains` with a literal pattern. -/
def listIsInfix {α : Type} [DecidableEq α] (needle hay : List α) : Bool :=
  match hay with
  | [] => needle.isEmpty
  | _ :: t => needle.isPrefixOf hay || listIsInfix needle t

/-- `s.contains(pat)` for strings. -/
def str_contains (s pat : String) : Bool := listIsInfix pat.data s.data

/-! ## Condition AST and evaluator (parser.rs) -/

/-- parser.rs `Condition` (line 61). -/
inductive Condition
  | Equal (column : String) (value : Value)
  | NotEqual (column : String) (value : Value)
  | GreaterThan (column : String) (value : Value)
  | LessThan (column : String) (value : Value)
  | GreaterEqual (column : String) (value : Value)
  | LessEqual (column : String) (value : Value)
  | Like (column : String) (pat : String)
  | IsNull (column : String)
  | IsNotNull (column : String)
  | And (left : Condition) (right : Condition)
  | Or (left : Condition) (right : Condition)
deriving DecidableEq

/-- parser.rs `get_column_index` closure inside `Condition::evaluate`
(line 109): position of the first schema column with the given name. -/
def get_column_index (columns : List Column) (col_name : String) : Option Nat :=
  columns.findIdx? (fun col => col.name == col_name)

/-- `a > b` under `PartialOrd`. -/
def pGt (a b : Value) : Bool := a.partial_cmp b == some .gt

/-- `a < b` under `PartialOrd`. -/
def pLt (a b : Value) : Bool := a.partial_cmp b == some .lt

/-- `a >= b` under `PartialOrd`. -/
def pGe (a b : Value) : Bool :=
  a.partial_cmp b == some .gt || a.partial_cmp b == some .eq

/-- `a <= b` under `PartialOrd`. -/
def pLe (a b : Value) : Bool :=
  a.partial_cmp b == some .lt || a.partial_cmp b == some .eq

/-- parser.rs `Condition::evaluate` (line 108).  A row access `row[idx]` is
modelled as `row.getD idx .Null`; along every path below `idx` is a schema
position and the rows evaluated have schema length, so the default is never
taken in reachable states. -/
def Condition.evaluate (c : Condition) (row : List Value) (columns : List Column) : Bool :=
  match c with
  | .Equal column value =>
    match get_column_index columns column with
    | some idx => row.getD idx .Null == value
    | none => false
  | .NotEqual column value =>
    match get_column_index columns column with
    | some idx => row.getD idx .Null != value
    | none => false
  | .GreaterThan column value =>
    match get_column_index columns column with
    | some idx => pGt (row.getD idx .Null) value
    | none => false
  | .LessThan column value =>
    match get_column_index columns column with
    | some idx => pLt (row.getD idx .Null) value
    | none => false
  | .GreaterEqual column value =>
    match get_column_index columns column with
    | some idx => pGe (row.getD idx .Null) value
    | none => false
  | .LessEqual column value =>
    match get_column_index columns column with
    | some idx => pLe (row.getD idx .Null) value
    | none => false
  | .Like column pat =>
    match get_column_index columns column with
    | some idx => str_contains (row.getD idx .Null).display pat
    | none => false
  | .IsNull column =>
    match get_column_index columns column with
    | some idx => (match row.getD idx .Null with | .Null => true | _ => false)
    | none => false
  | .IsNotNull column =>
    match get_column_index columns column with
    | some idx => (match row.getD idx .Null with | .Null => false | _ => true)
    | none => false
  | .And left right => left.evaluate row columns && right.evaluate row columns
  | .Or left right => left.evaluate row columns || right.evaluate row columns

/-- The column name referenced by a leaf condition; `none` for the `And`/`Or`
combinators. -/
def condition_column : Condition → Option String
  | .Equal column _ => some column
  | .NotEqual column _ => some column
  | .GreaterThan column _ => some column
  | .LessThan column _ => some column
  | .GreaterEqual column _ => some column
  | .LessEqual column _ => some column
  | .Like column _ => some column
  | .IsNull column => some column
  | .IsNotNull column => some column
  | .And _ _ => none
  | .Or _ _ => none

/-- parser.rs `OrderDirection` (line 55). -/
inductive OrderDirection
  | Ascending
  | Descending
deriving DecidableEq

/-- parser.rs `OrderBy` (line 49). -/
structure OrderBy where
  column : String
  direction : OrderDirection
deriving DecidableEq

/-! ## Tokenizer (parser.rs `Parser::tokenize`, line 195) -/

/-- parser.rs `TokenType` (line 151). -/
inductive TokenType
  | Identifier
  | Keyword
  | Operator
  | Punctuation
  | StringLiteral
  | NumericLiteral
  | Comment
  | EOF
deriving DecidableEq

/-- parser.rs `Token` (line 163). -/
structure Token where
  token_type : TokenType
  value : String
  position : Nat
deriving DecidableEq

/-- ASCII uppercasing, the model of `str::to_uppercase` (all strings compared
case-insensitively by the parser are ASCII). -/
def strUpper (s : String) : String := String.mk (s.data.map Char.toUpper)

/-- The reserved-word list of parser.rs (line 199). -/
def keywords : List String :=
  ["SELECT", "FROM", "WHERE", "INSERT", "INTO", "VALUES", "UPDATE", "SET",
   "DELETE", "CREATE", "TABLE", "DROP", "ALTER", "ADD", "COLUMN", "PRIMARY",
   "KEY", "FOREIGN", "REFERENCES", "INTEGER", "TEXT", "BOOLEAN", "REAL",
   "NULL", "NOT", "AND", "OR", "ORDER", "BY", "ASC", "DESC", "LIMIT",
   "OFFSET", "GROUP", "HAVING", "JOIN", "INNER", "LEFT", "RIGHT", "OUTER",
   "ON", "AS", "DISTINCT", "COUNT", "SUM", "AVG", "MIN", "MAX", "BETWEEN",
   "IN", "LIKE", "IS", "TRUE", "FALSE"]

/-- The operator list of parser.rs (line 256), multi-character operators
first. -/
def operators : List String :=
  ["=", "<>", ">=", "<=", ">", "<", "+", "-", "*", "/", "%"]

/-- The punctuation list of parser.rs (line 257). -/
def punctuation : List String :=
  ["(", ")", ",", ";", "."]

/-- Index of the first non-whitespace character, the model of
`remainder.find(|c| !c.is_whitespace())`. -/
def findNonWs : List Char → Option Nat
  | [] => none
  | c :: t => if c.isWhitespace then (findNonWs t).map (· + 1) else some 0

/-- Index of the first newline, the model of `remainder.find('\n')`. -/
def findNewline : List Char → Option Nat
  | [] => none
  | c :: t => if c == '\n' then some 0 else (findNewline t).map (· + 1)

/-- The string-literal scanning loop of `tokenize` (parser.rs line 287),
run over the characters after the opening quote: returns the number of
content characters before the unescaped closing quote `q`, or `none` when
the input ends first.  A backslash escapes the character after it. -/
def scan_string (q : Char) : List Char → Bool → Option Nat
  | [], _ => none
  | c :: t, escaped =>
    if escaped then (scan_string q t false).map (· + 1)
    else if c == '\\' then (scan_string q t true).map (· + 1)
    else if c == q then some 0
    else (scan_string q t false).map (· + 1)

/-- The numeric-literal scanning loop of `tokenize` (parser.rs line 319):
length of the longest run of digits with at most one `.`. -/
def scan_number : List Char → Bool → Nat
  | [], _ => 0
  | c :: t, has_dot =>
    if c.isDigit then 1 + scan_number t has_dot
    else if c == '.' && !has_dot then 1 + scan_number t true
    else 0

/-- The identifier scanning loop of `tokenize` (parser.rs line 376): length of
the longest run of alphanumeric or underscore characters. -/
def scan_ident : List Char → Nat
  | [] => 0
  | c :: t => if c.isAlphanum || c == '_' then 1 + scan_ident t else 0

/-- First candidate string that is a forward match at the scan position, the
model of the `starts_with` loops over `operators` and `punctuation`. -/
def firstMatch (cands : List String) (rem : List Char) : Option String :=
  cands.find? (fun c => c.data.isPrefixOf rem)

/-- The errors `tokenize` can return.  `OutOfFuel` is the unreachable fuel
branch of the loop model (the initial fuel `input.length + 1` dominates the
iteration count because every iteration advances `pos` by at least one). -/
inductive TokenizeError
  | UnterminatedString (position : Nat)
  | UnexpectedChar (position : Nat)
  | OutOfFuel
deriving DecidableEq

/-- The scanning loop of parser.rs `Parser::tokenize` (line 259): at each
position, in priority order, skip whitespace, scan a `--` comment, a quoted
string literal, a numeric literal, an operator, punctuation or an
identifier/keyword; any other character is an error.  Hitting the end of
input (or a trailing all-whitespace run) appends the `EOF` token. -/
def tokenize_loop (input : List Char) : Nat → Nat → List Token → Except TokenizeError (List Token)
  | 0, _, _ => .error .OutOfFuel
  | fuel + 1, pos, acc =>
    if input.length ≤ pos then .ok (acc ++ [⟨.EOF, "", pos⟩])
    else
      let rem := input.drop pos
      match findNonWs rem with
      | none => .ok (acc ++ [⟨.EOF, "", pos⟩])
      | some (k + 1) => tokenize_loop input fuel (pos + (k + 1)) acc
      | some 0 =>
        if ['-', '-'].isPrefixOf rem then
          let stop := (findNewline rem).getD rem.length
          tokenize_loop input fuel (pos + stop)
            (acc ++ [⟨.Comment, String.mk (rem.take stop), pos⟩])
        else if rem.headD ' ' == '\'' || rem.headD ' ' == '"' then
          match scan_string (rem.headD ' ') (rem.drop 1) false with
          | none => .error (.UnterminatedString pos)
          | some n =>
            tokenize_loop input fuel (pos + n + 2)
              (acc ++ [⟨.StringLiteral, String.mk ((rem.drop 1).take n), pos⟩])
        else if (rem.headD ' ').isDigit then
          let stop := scan_number rem false
          tokenize_loop input fuel (pos + stop)
            (acc ++ [⟨.NumericLiteral, String.mk (rem.take stop), pos⟩])
        else
          match firstMatch operators rem with
          | some op =>
            tokenize_loop input fuel (pos + op.length)
              (acc ++ [⟨.Operator, op, pos⟩])
          | none =>
            match firstMatch punctuation rem with
            | some p =>
              tokenize_loop input fuel (pos + p.length)
                (acc ++ [⟨.Punctuation, p, pos⟩])
            | none =>
              if (rem.headD ' ').isAlpha || rem.headD ' ' == '_' then
                let stop := scan_ident rem
                let ident := String.mk (rem.take stop)
                let tt := if keywords.contains (strUpper ident) then
                    TokenType.Keyword else TokenType.Identifier
                tokenize_loop input fuel (pos + stop) (acc ++ [⟨tt, ident, pos⟩])
              else .error (.UnexpectedChar pos)

/-- parser.rs `Parser::tokenize` (line 195), called by `Parser::new`. -/
def tokenize (input : List Char) : Except TokenizeError (List Token) :=
  tokenize_loop input (input.length + 1) 0 []

/-! ## Condition parser (parser.rs `parse_condition`/`parse_conditions`) -/

/-- The errors the condition parser can return, one constructor per `anyhow`
message site.  `OutOfFuel` is the unreachable fuel branch of the
`parse_conditions` loop model. -/
inductive ParseError
  | UnexpectedEnd
  | ExpectedTokenType
  | Expected (s : String)
  | ExpectedNullAfterIs
  | LikePatternNotString
  | UnknownOperator (op : String)
  | OutOfFuel
deriving DecidableEq

/-- Model of `str::parse::<f64>` for a numeric literal containing a dot: an
abstract injective code of the literal text (see the header; no property
proved below involves `Real` values). -/
def real_code (s : String) : Int :=
  s.data.foldl (fun acc c => acc * 256 + (c.toNat : Int)) 0

/-- Model of `str::parse::<i64>` for a digit-only numeric literal. -/
def parse_int (s : String) : Int :=
  (s.data.foldl (fun acc c => acc * 10 + (c.toNat - 48)) 0 : Nat)

/-- The literal-token-to-`Value` conversion shared by `parse_condition`
(parser.rs line 790) and `parse_value` (line 833): numeric literals become
`Real` when they contain a dot and `Integer` otherwise, string literals
become `Text`, the keywords NULL/TRUE/FALSE their values, and anything else
falls through to `Text` of the token text. -/
def token_to_value (t : Token) : Value :=
  match t.token_type with
  | .NumericLiteral =>
    if t.value.data.contains '.' then .Real (real_code t.value)
    else .Integer (parse_int t.value)
  | .StringLiteral => .Text t.value
  | .Keyword =>
    if strUpper t.value == "NULL" then .Null
    else if strUpper t.value == "TRUE" then .Boolean true
    else if strUpper t.value == "FALSE" then .Boolean false
    else .Text t.value
  | _ => .Text t.value

/-- parser.rs `Parser::parse_condition` (line 769): consume one simple
condition (`column IS [NOT] NULL` or `column <op> <literal>`) starting at
token index `cur`; return it with the index after it.  The source wraps the
condition in `Option` but every `Ok` carries `Some`, so the model returns
the condition directly. -/
def parse_condition (tokens : List Token) (cur : Nat) : Except ParseError (Condition × Nat) :=
  match tokens.get? cur with
  | none => .error .UnexpectedEnd
  | some ct =>
    if ct.token_type != TokenType.Identifier then .error .ExpectedTokenType
    else
      match tokens.get? (cur + 1) with
      | none => .error .UnexpectedEnd
      | some t1 =>
        if strUpper t1.value == "IS" then
          match tokens.get? (cur + 2) with
          | none => .error .UnexpectedEnd
          | some t2 =>
            if strUpper t2.value == "NOT" then
              match tokens.get? (cur + 3) with
              | none => .error .UnexpectedEnd
              | some t3 =>
                if strUpper t3.value == "NULL" then .ok (.IsNotNull ct.value, cur + 4)
                else .error (.Expected "NULL")
            else if strUpper t2.value == "NULL" then .ok (.IsNull ct.value, cur + 3)
            else .error .ExpectedNullAfterIs
        else
          match tokens.get? (cur + 2) with
          | none => .error .UnexpectedEnd
          | some vt =>
            let value := token_to_value vt
            if t1.value == "=" then .ok (.Equal ct.value value, cur + 3)
            else if t1.value == "<>" || t1.value == "!=" then .ok (.NotEqual ct.value value, cur + 3)
            else if t1.value == ">" then .ok (.GreaterThan ct.value value, cur + 3)
            else if t1.value == "<" then .ok (.LessThan ct.value value, cur + 3)
            else if t1.value == ">=" then .ok (.GreaterEqual ct.value value, cur + 3)
            else if t1.value == "<=" then .ok (.LessEqual ct.value value, cur + 3)
            else if t1.value == "LIKE" then
              match value with
              | .Text p => .ok (.Like ct.value p, cur + 3)
              | _ => .error .LikePatternNotString
            else .error (.UnknownOperator t1.value)

/-- The combining loop of parser.rs `Parser::parse_conditions` (line 740):
while the next token is `AND` or `OR`, parse the condition after it and fold
it with the condition accumulated so far — the left-fold keeps exactly one
condition (the source's one-element `Vec`), so `a OR b AND c` becomes
`And(Or(a, b), c)`. -/
def parse_conditions_loop (tokens : List Token) : Nat → Nat → Condition → Except ParseError (Condition × Nat)
  | 0, _, _ => .error .OutOfFuel
  | fuel + 1, cur, leftc =>
    if tokens.length ≤ cur then .ok (leftc, cur)
    else
      match tokens.get? cur with
      | none => .ok (leftc, cur)
      | some t =>
        if strUpper t.value == "AND" || strUpper t.value == "OR" then
          match parse_condition tokens (cur + 1) with
          | .error e => .error e
          | .ok (rightc, cur2) =>
            parse_conditions_loop tokens fuel cur2
              (if strUpper t.value == "AND" then Condition.And leftc rightc
               else Condition.Or leftc rightc)
        else .ok (leftc, cur)

/-- parser.rs `Parser::parse_conditions` (line 736): parse one condition and
then fold subsequent `AND`/`OR` conditions into it left-to-right; the result
is the source's one-element condition vector. -/
def parse_conditions (tokens : List Token) (cur : Nat) : Except ParseError (List Condition × Nat) :=
  match parse_condition tokens cur with
  | .error e => .error e
  | .ok (c, cur1) =>
    match parse_conditions_loop tokens (tokens.length + 1) cur1 c with
    | .error e => .error e
    | .ok (c2, cur2) => .ok ([c2], cur2)

/-! ## Storage engine model (storage.rs)

The model is per table: a `Table` bundles the table's catalog entry
(columns, row count, index descriptors) with the contents of its data file
and of each index's file.  The `Storage` map from table names to tables and
the metadata persistence are not needed by any property below; every
operation modelled here acts on the table it is given (the `Table not
found` lookup failure is the only behaviour elided). -/

/-- A row: the deserialized form of one data-file line. -/
abbrev Row := List Value

/-- storage.rs `Index` (line 25) merged with the contents of the index file
at its `file_path`: the descriptor (name, indexed column names) plus the
file's `(key, byte-offset)` entry list, offsets modelled as line indexes. -/
structure Index where
  name : String
  columns : List String
  entries : List (List Value × Nat)
deriving DecidableEq

/-- storage.rs `TableMetadata` (line 17) merged with the table's data file. -/
structure Table where
  columns : List Column
  row_count : Nat
  indexes : List Index
  data_file : List Row
deriving DecidableEq

/-- The errors of the storage operations modelled below, one constructor per
`anyhow` message site. -/
inductive StorageError
  | ColumnCountMismatch
  | ValueCountMismatch
  | TypeMismatch (v : Value) (dt : DataType)
  | ColumnNotFound (name : String)
  | OrderByColumnNotFound
  | IndexNotFound
  | IndexColumnNotFound
  | IndexAlreadyExists
  | IoError
deriving DecidableEq

/-! ### insert_row (storage.rs line 172) -/

/-- Lookup in the `col_map` HashMap of `insert_row` built by inserting the
`(name, value)` pairs in order: the LAST binding of a name wins. -/
def col_map_lookup (pairs : List (String × Value)) (name : String) : Option Value :=
  (pairs.reverse.find? (fun p => p.1 == name)).map (fun p => p.2)

/-- The reordering step of `insert_row` for an explicit column list
(storage.rs line 193): for every schema column in declared order, the value
bound to its name in the explicit list, or `Null` when the name is absent. -/
def reorder_values (schema : List Column) (col_names : List String) (values : List Value) : List Value :=
  schema.map (fun col => (col_map_lookup (col_names.zip values) col.name).getD .Null)

/-- The type-checking loop of `insert_row` (storage.rs line 217): the first
non-`Null` value whose variant does not match its column's type fails.
(The source indexes `columns[i]`, reachable only with equal lengths; extra
values beyond the schema are unreachable there and accepted here.) -/
def type_check : List Value → List Column → Except StorageError Unit
  | [], _ => .ok ()
  | _ :: _, [] => .ok ()
  | v :: vs, c :: cs =>
    match v, c.data_type with
    | .Null, _ => type_check vs cs
    | .Integer _, .Integer => type_check vs cs
    | .Text _, .Text => type_check vs cs
    | .Boolean _, .Boolean => type_check vs cs
    | .Real _, .Real => type_check vs cs
    | _, _ => .error (.TypeMismatch v c.data_type)

/-- The `key_values` loop of `update_index` (storage.rs line 278): the
inserted row's values at the index columns' schema positions, failing at the
first index column missing from the schema.  `values[col_idx]` is modelled
as `getD` (the source call sites pass schema-length rows). -/
def index_key_values (schema : List Column) (values : List Value) :
    List String → Except StorageError (List Value)
  | [] => .ok []
  | cn :: rest =>
    match get_column_index schema cn with
    | none => .error .IndexColumnNotFound
    | some i =>
      match index_key_values schema values rest with
      | .error e => .error e
      | .ok vs => .ok (values.getD i Value.Null :: vs)

/-- storage.rs `Storage::update_index` (line 259): project the inserted row
onto the index's columns by their schema positions and append one
`(key, offset)` entry to that index's file. -/
def update_index (tbl : Table) (index_name : String) (values : List Value) (position : Nat) :
    Except StorageError Table :=
  match tbl.indexes.find? (fun idx => idx.name == index_name) with
  | none => .error .IndexNotFound
  | some index =>
    match index_key_values tbl.columns values index.columns with
    | .error e => .error e
    | .ok key_values =>
      .ok { tbl with
        indexes := tbl.indexes.map (fun idx =>
          if idx.name == index_name then
            { idx with entries := idx.entries ++ [(key_values, position)] }
          else idx) }

/-- The `update_index` calls at the end of `insert_row` (storage.rs line 252),
one per index of the table, in declaration order; an error stops the loop
and returns with the state as updated so far. -/
def insert_indexes (names : List String) (values : List Value) (position : Nat) (tbl : Table) :
    Except StorageError Unit × Table :=
  match names with
  | [] => (.ok (), tbl)
  | n :: rest =>
    match update_index tbl n values position with
    | .error e => (.error e, tbl)
    | .ok tbl2 => insert_indexes rest values position tbl2

/-- The tail of `insert_row` after the values are in schema order: type-check,
append the row as one line (its offset is the previous end of file), bump
`row_count`, persist the catalog, then maintain every index. -/
def insert_row_checked (tbl : Table) (values : List Value) : Except StorageError Unit × Table :=
  match type_check values tbl.columns with
  | .error e => (.error e, tbl)
  | .ok _ =>
    let position := tbl.data_file.length
    let tbl2 := { tbl with
      data_file := tbl.data_file ++ [values],
      row_count := tbl.row_count + 1 }
    insert_indexes (tbl2.indexes.map (fun i => i.name)) values position tbl2

/-- storage.rs `Storage::insert_row` (line 172).  The state component of the
result is the table as it is when the function returns (unchanged on every
error path that precedes the data-file append). -/
def insert_row (tbl : Table) (columns : Option (List String)) (values : List Value) :
    Except StorageError Unit × Table :=
  match columns with
  | some col_names =>
    if col_names.length != values.length then (.error .ColumnCountMismatch, tbl)
    else insert_row_checked tbl (reorder_values tbl.columns col_names values)
  | none =>
    if tbl.columns.length != values.length then (.error .ValueCountMismatch, tbl)
    else insert_row_checked tbl values

/-! ### create_index / drop_index (storage.rs lines 543 and 668) -/

/-- The per-row index key of the `create_index` backfill (storage.rs
line 621): the row's values at the indexed columns' schema positions,
`Null` when the row is shorter than the position.  (The `none` branch is
unreachable from `create_index`, which validates the columns first.) -/
def key_of_row (schema : List Column) (idx_cols : List String) (row : Row) : List Value :=
  idx_cols.map (fun cn =>
    match get_column_index schema cn with
    | some i => row.getD i Value.Null
    | none => Value.Null)

/-- The backfill loop of `create_index` (storage.rs line 614): one
`(key, offset)` entry per data-file line, in file order, `base` being the
offset of the first line. -/
def entries_from (schema : List Column) (idx_cols : List String) : Nat → List Row → List (List Value × Nat)
  | _, [] => []
  | base, r :: rs =>
    (key_of_row schema idx_cols r, base) :: entries_from schema idx_cols (base + 1) rs

/-- The full index file as `create_index` builds it over an existing data
file. -/
def entries_of (schema : List Column) (idx_cols : List String) (data : List Row) : List (List Value × Nat) :=
  entries_from schema idx_cols 0 data

/-- storage.rs `Storage::create_index` (line 543): validate the index name is
unused and the columns exist, register the descriptor and backfill the index
file from the current data file. -/
def create_index (tbl : Table) (index_name : String) (cols : List String) :
    Except StorageError Table :=
  if tbl.indexes.any (fun i => i.name == index_name) then .error .IndexAlreadyExists
  else
    match cols.find? (fun cn => !(tbl.columns.any (fun c => c.name == cn))) with
    | some cn => .error (.ColumnNotFound cn)
    | none =>
      .ok { tbl with
        indexes := tbl.indexes ++ [⟨index_name, cols, entries_of tbl.columns cols tbl.data_file⟩] }

/-- storage.rs `Storage::drop_index` (line 668): remove the first index with
the given name (and delete its file). -/
def drop_index (tbl : Table) (index_name : String) : Except StorageError Table :=
  if tbl.indexes.any (fun i => i.name == index_name) then
    .ok { tbl with indexes := tbl.indexes.eraseP (fun i => i.name == index_name) }
  else .error .IndexNotFound

/-! ### get_rows (storage.rs line 332) -/

/-- storage.rs `Storage::load_rows_paginated` (line 304): skip `start_row`
lines, return up to `max_rows` following rows in file order. -/
def load_rows_paginated (data : List Row) (start_row max_rows : Nat) : List Row :=
  (data.drop start_row).take max_rows

/-- The condition filter of the scan loop (storage.rs line 372): with no
condition list every row matches, otherwise all conditions must evaluate
true. -/
def row_matches (columns : List Column) (conditions : Option (List Condition)) (row : Row) : Bool :=
  match conditions with
  | some conds => conds.all (fun c => c.evaluate row columns)
  | none => true

/-- Whether the collected row count has reached the limit;
`limit.unwrap_or(usize::MAX)` is modelled as `none` = never reached (a
result set can never reach `usize::MAX` rows). -/
def at_limit (limit : Option Nat) (n : Nat) : Bool :=
  match limit with
  | some l => decide (l ≤ n)
  | none => false

/-- The inner row loop of the full-scan path (storage.rs line 371): append
each matching row of the page, stopping as soon as the limit is reached. -/
def collect_page (columns : List Column) (conditions : Option (List Condition))
    (limit : Option Nat) (acc : List Row) : List Row → List Row
  | [] => acc
  | row :: rest =>
    if !row_matches columns conditions row then
      collect_page columns conditions limit acc rest
    else
      let acc2 := acc ++ [row]
      if at_limit limit acc2.length then acc2
      else collect_page columns conditions limit acc2 rest

/-- storage.rs engine page size (`Storage::new`, line 130). -/
def page_size : Nat := 1000

/-- The paginated full-scan loop of `get_rows` (storage.rs line 364): load
pages of `page_size` rows until a page comes back empty or the limit is
reached.  The fuel `data.length + 1` dominates the iteration count (each
iteration advances `start_row` by `page_size ≥ 1`). -/
def scan_pages (data : List Row) (columns : List Column) (conditions : Option (List Condition))
    (limit : Option Nat) : Nat → Nat → List Row → List Row
  | 0, _, acc => acc
  | fuel + 1, start_row, acc =>
    if at_limit limit acc.length then acc
    else
      let rows := load_rows_paginated data start_row page_size
      if rows.isEmpty then acc
      else
        scan_pages data columns conditions limit fuel (start_row + page_size)
          (collect_page columns conditions limit acc rows)

/-- The full-scan path of `get_rows` on a table. -/
def full_scan (tbl : Table) (conditions : Option (List Condition)) (limit : Option Nat) : List Row :=
  scan_pages tbl.data_file tbl.columns conditions limit (tbl.data_file.length + 1) 0 []

/-- The columns compared by top-level `Equal` conditions, in condition order
(storage.rs line 441). -/
def condition_columns (conds : List Condition) : List String :=
  conds.filterMap (fun c =>
    match c with
    | .Equal column _ => some column
    | _ => none)

/-- storage.rs `Storage::find_usable_index` (line 438): the first index, in
declaration order, whose (nonempty) column set is contained in the
`Equal`-compared columns. -/
def find_usable_index (tbl : Table) (conds : List Condition) : Option String :=
  (tbl.indexes.find? (fun idx =>
      idx.columns.all (fun c => (condition_columns conds).contains c)
        && !idx.columns.isEmpty)).map (fun idx => idx.name)

/-- The value of the first top-level `Equal` condition on a given column
(the inner loop with `break` of storage.rs line 494). -/
def first_equal_value (conds : List Condition) (col : String) : Option Value :=
  (conds.filterMap (fun c =>
    match c with
    | .Equal column v => if column == col then some v else none
    | _ => none)).head?

/-- The lookup key of the accelerated path (storage.rs line 492): for each
index column in order, the first matching `Equal` value; columns with no
`Equal` condition contribute nothing. -/
def key_pattern (idx_cols : List String) (conds : List Condition) : List Value :=
  idx_cols.filterMap (first_equal_value conds)

/-- The entry loop of `get_rows_using_index` (storage.rs line 508): for each
index-file entry whose key equals the pattern, seek to its offset, read that
row and keep it if the entire condition set evaluates true, stopping at the
limit.  A dangling offset makes the row read fail (`IoError`). -/
def index_lookup (data : List Row) (columns : List Column) (conds : List Condition)
    (pat : List Value) (limit : Option Nat) (acc : List Row) :
    List (List Value × Nat) → Except StorageError (List Row)
  | [] => .ok acc
  | (key, off) :: rest =>
    if at_limit limit acc.length then .ok acc
    else if key == pat then
      match data.get? off with
      | none => .error .IoError
      | some row =>
        if conds.all (fun c => c.evaluate row columns) then
          index_lookup data columns conds pat limit (acc ++ [row]) rest
        else index_lookup data columns conds pat limit acc rest
    else index_lookup data columns conds pat limit acc rest

/-- storage.rs `Storage::get_rows_using_index` (line 465). -/
def get_rows_using_index (tbl : Table) (index_name : String) (conds : List Condition)
    (limit : Option Nat) : Except StorageError (List Row) :=
  match tbl.indexes.find? (fun idx => idx.name == index_name) with
  | none => .error .IndexNotFound
  | some index =>
    index_lookup tbl.data_file tbl.columns conds (key_pattern index.columns conds) limit []
      index.entries

/-! ### Ordering and projection (storage.rs lines 393 and 410) -/

/-- Stable insertion of `x` into `l`: `x` goes before the first element it
compares `le` to, hence before equal elements that were later in the input. -/
def sort_by_insert {α : Type} (le : α → α → Bool) (x : α) : List α → List α
  | [] => [x]
  | y :: ys => if le x y then x :: y :: ys else y :: sort_by_insert le x ys

/-- Model of `Vec::sort_by` with comparator-`le` (`comparator ≠ Greater`): a
stable insertion sort, which agrees with every stable sort (Rust documents
`sort_by` as stable) on total preorder comparators. -/
def sort_by {α : Type} (le : α → α → Bool) (l : List α) : List α :=
  l.foldr (sort_by_insert le) []

/-- The comparator built by `get_rows` for ORDER BY (storage.rs line 400):
`Value` comparison of the sort column, reversed for `Descending`. -/
def order_comparator (column_idx : Nat) (direction : OrderDirection) (a b : Row) : Ordering :=
  let c := Value.cmp (a.getD column_idx Value.Null) (b.getD column_idx Value.Null)
  match direction with
  | .Descending => c.swap
  | .Ascending => c

/-- The `sort_by` call of `get_rows`. -/
def sort_result (rows : List Row) (column_idx : Nat) (direction : OrderDirection) : List Row :=
  sort_by (fun a b => order_comparator column_idx direction a b != Ordering.gt) rows

/-- The `col_indices` HashMap of the projection step (storage.rs line 413),
built by inserting every schema position in order: the LAST position of a
name wins. -/
def last_index_of (columns : List Column) (name : String) : Option Nat :=
  (columns.enum.filterMap (fun p => if p.2.name == name then some p.1 else none)).getLast?

/-- Projection of one row onto the requested columns (storage.rs line 421):
the row's values at the requested names' schema positions, in requested
order; an unknown name fails the call. -/
def project_row (columns : List Column) (requested : List String) : Row → Except StorageError Row
  | row =>
    match requested with
    | [] => .ok []
    | cn :: rest =>
      match last_index_of columns cn with
      | none => .error (.ColumnNotFound cn)
      | some i =>
        match project_row columns rest row with
        | .error e => .error e
        | .ok vs => .ok (row.getD i Value.Null :: vs)

/-- The projection loop over all result rows (storage.rs line 418). -/
def project_rows (columns : List Column) (requested : List String) :
    List Row → Except StorageError (List Row)
  | [] => .ok []
  | r :: rs =>
    match project_row columns requested r with
    | .error e => .error e
    | .ok pr =>
      match project_rows columns requested rs with
      | .error e => .error e
      | .ok prs => .ok (pr :: prs)

/-! ### get_rows assembly (storage.rs line 332) -/

/-- The `use_index` binding of `get_rows` (storage.rs line 348): consult
`find_usable_index` only when a condition list is present. -/
def use_index (tbl : Table) (conditions : Option (List Condition)) : Option String :=
  match conditions with
  | some conds => find_usable_index tbl conds
  | none => none

/-- The scan stage of `get_rows`: pick an index with `find_usable_index` when
a condition list is present and use the accelerated path, otherwise run the
paginated full scan. -/
def scanned_rows (tbl : Table) (conditions : Option (List Condition)) (limit : Option Nat) :
    Except StorageError (List Row) :=
  match use_index tbl conditions with
  | some index_name => get_rows_using_index tbl index_name (conditions.getD []) limit
  | none => .ok (full_scan tbl conditions limit)

/-- The ordering stage of `get_rows` (storage.rs line 393): sort the whole
result set by the named column, failing when the column is not in the
schema. -/
def sorted_rows (tbl : Table) (conditions : Option (List Condition))
    (order_by : Option OrderBy) (limit : Option Nat) : Except StorageError (List Row) :=
  match scanned_rows tbl conditions limit with
  | .error e => .error e
  | .ok result_rows =>
    match order_by with
    | none => .ok result_rows
    | some ob =>
      match get_column_index tbl.columns ob.column with
      | none => .error .OrderByColumnNotFound
      | some column_idx => .ok (sort_result result_rows column_idx ob.direction)

/-- storage.rs `Storage::get_rows` (line 332): scan (indexed or full), sort,
then project — unless the requested list is empty or its first element is
`"*"`, in which case the rows are returned unprojected. -/
def get_rows (tbl : Table) (columns : List String) (conditions : Option (List Condition))
    (order_by : Option OrderBy) (limit : Option Nat) : Except StorageError (List Row) :=
  match sorted_rows tbl conditions order_by limit with
  | .error e => .error e
  | .ok sorted =>
    match columns with
    | [] => .ok sorted
    | c0 :: _ => if c0 == "*" then .ok sorted else project_rows tbl.columns columns sorted

/-! ## Characterization of the paginated full scan -/

/-- Capping a list at an optional limit. -/
def limit_take {α : Type} (limit : Option Nat) (l : List α) : List α :=
  match limit with
  | none => l
  | some n => l.take n

theorem limit_take_nil {α : Type} (limit : Option Nat) : limit_take limit ([] : List α) = [] := by
  cases limit <;> simp [limit_take]

theorem collect_page_none (columns : List Column) (conditions : Option (List Condition)) :
    ∀ (page acc : List Row),
      collect_page columns conditions none acc page =
        acc ++ page.filter (row_matches columns conditions) := by
  intro page
  induction page with
  | nil => intro acc; simp [collect_page]
  | cons row rest ih =>
    intro acc
    by_cases hm : row_matches columns conditions row
    · simp [collect_page, hm, at_limit, List.filter_cons, ih]
    · simp [collect_page, hm, List.filter_cons, ih]

theorem at_limit_some (l n : Nat) : at_limit (some l) n = decide (l ≤ n) := rfl

theorem at_limit_none (n : Nat) : at_limit none n = false := rfl

theorem collect_page_some (columns : List Column) (conditions : Option (List Condition)) (n : Nat) :
    ∀ (page acc : List Row), acc.length < n →
      collect_page columns conditions (some n) acc page =
        acc ++ (page.filter (row_matches columns conditions)).take (n - acc.length) := by
  intro page
  induction page with
  | nil => intro acc _; simp [collect_page]
  | cons row rest ih =>
    intro acc hacc
    by_cases hm : row_matches columns conditions row
    · by_cases hstop : n ≤ acc.length + 1
      · have hal : at_limit (some n) (acc.length + 1) = true := by
          simp [at_limit_some]; omega
        have h1 : n - acc.length = 1 := by omega
        simp [collect_page, hm, hal, List.filter_cons, h1]
      · have hal : at_limit (some n) (acc.length + 1) = false := by
          simp [at_limit_some]; omega
        have hlt : (acc ++ [row]).length < n := by simp; omega
        have h2 : n - acc.length = (n - (acc.length + 1)) + 1 := by omega
        simp [collect_page, hm, hal, List.filter_cons, ih (acc ++ [row]) hlt, h2,
          List.take_succ_cons]
    · simp [collect_page, hm, List.filter_cons, ih acc hacc]

theorem collect_page_eq (columns : List Column) (conditions : Option (List Condition))
    (limit : Option Nat) (page acc : List Row) (hacc : at_limit limit acc.length = false) :
    collect_page columns conditions limit acc page =
      acc ++ limit_take (limit.map (fun m => m - acc.length))
        (page.filter (row_matches columns conditions)) := by
  cases limit with
  | none => simpa [limit_take] using collect_page_none columns conditions page acc
  | some n =>
    have hn : acc.length < n := by simp [at_limit] at hacc; omega
    simpa [limit_take] using collect_page_some columns conditions n page acc hn

theorem scan_pages_eq (data : List Row) (columns : List Column)
    (conditions : Option (List Condition)) (limit : Option Nat) :
    ∀ (fuel start : Nat) (acc : List Row), data.length ≤ start + fuel →
      scan_pages data columns conditions limit fuel start acc =
        if at_limit limit acc.length = true then acc
        else acc ++ limit_take (limit.map (fun m => m - acc.length))
          ((data.drop start).filter (row_matches columns conditions)) := by
  intro fuel
  induction fuel with
  | zero =>
    intro start acc hfuel
    have hdrop : data.drop start = [] := List.drop_eq_nil_of_le (by omega)
    simp only [scan_pages, hdrop, List.filter_nil, limit_take_nil, List.append_nil]
    split <;> rfl
  | succ fuel ih =>
    intro start acc hfuel
    cases hacc : at_limit limit acc.length with
    | true => simp [scan_pages, hacc]
    | false =>
      rw [if_neg (by simp [hacc])]
      have hunfold : scan_pages data columns conditions limit (fuel + 1) start acc =
          (if (load_rows_paginated data start page_size).isEmpty then acc
           else scan_pages data columns conditions limit fuel (start + page_size)
             (collect_page columns conditions limit acc
               (load_rows_paginated data start page_size))) := by
        simp [scan_pages, hacc]
      rw [hunfold]
      by_cases hempty : (load_rows_paginated data start page_size).isEmpty
      · have hdrop : data.drop start = [] := by
          by_contra hne
          rcases List.exists_cons_of_ne_nil hne with ⟨x, xs, hx⟩
          simp [load_rows_paginated, hx, page_size] at hempty
        simp [hempty, hdrop, limit_take_nil]
      · rw [if_neg hempty]
        have hsplit : data.drop start =
            load_rows_paginated data start page_size ++ data.drop (start + page_size) := by
          have h1 : data.drop (start + page_size) = (data.drop start).drop page_size := by
            rw [List.drop_drop, Nat.add_comm]
          rw [h1, load_rows_paginated, List.take_append_drop]
        rw [collect_page_eq columns conditions limit _ acc hacc]
        rw [ih (start + page_size) _ (by simp only [page_size] at hfuel ⊢; omega)]
        have hfilter : (data.drop start).filter (row_matches columns conditions) =
            (load_rows_paginated data start page_size).filter (row_matches columns conditions)
              ++ (data.drop (start + page_size)).filter (row_matches columns conditions) := by
          conv_lhs => rw [hsplit]
          rw [List.filter_append]
        rw [hfilter]
        set A := (load_rows_paginated data start page_size).filter
          (row_matches columns conditions) with hA
        set B := (data.drop (start + page_size)).filter (row_matches columns conditions) with hB
        cases limit with
        | none =>
          simp only [Option.map_none', limit_take, at_limit_none, Bool.false_eq_true,
            if_false, List.append_assoc]
        | some n =>
          have hacc2 : acc.length < n := by
            simp only [at_limit_some, decide_eq_false_iff_not, not_le] at hacc
            omega
          simp only [limit_take, Option.map_some']
          by_cases hle : n - acc.length ≤ A.length
          · have hlen : (acc ++ A.take (n - acc.length)).length =
                acc.length + (n - acc.length) := by
              simp [List.length_take]; omega
            have hal : at_limit (some n) (acc ++ A.take (n - acc.length)).length = true := by
              rw [hlen, at_limit_some]; simp only [decide_eq_true_eq]; omega
            rw [if_pos hal, List.take_append_of_le_length hle]
          · have htA : A.take (n - acc.length) = A := List.take_of_length_le (by omega)
            have hlen : (acc ++ A.take (n - acc.length)).length = acc.length + A.length := by
              rw [htA]; simp
            have hal : ¬ (at_limit (some n) (acc ++ A.take (n - acc.length)).length = true) := by
              rw [hlen, at_limit_some]; simp only [decide_eq_true_eq]; omega
            rw [if_neg hal, htA, List.take_append_eq_append_take, htA]
            have harith : n - (acc ++ A).length = n - acc.length - A.length := by
              simp only [List.length_append]; omega
            rw [harith, List.append_assoc]

/-- The full-scan path returns exactly the rows satisfying the condition set,
in file order, capped at the limit. -/
theorem full_scan_eq (tbl : Table) (conditions : Option (List Condition)) (limit : Option Nat) :
    full_scan tbl conditions limit =
      limit_take limit (tbl.data_file.filter (row_matches tbl.columns conditions)) := by
  unfold full_scan
  rw [scan_pages_eq tbl.data_file tbl.columns conditions limit (tbl.data_file.length + 1) 0 []
    (by omega)]
  cases limit with
  | none => simp [at_limit, limit_take]
  | some n =>
    by_cases hn : n = 0
    · simp [hn, at_limit, limit_take]
    · simp only [at_limit, List.length_nil, decide_eq_true_eq]
      rw [if_neg (by omega)]
      simp [limit_take]

/-! ## Characterization of the index-accelerated path -/

/-- Discriminator for top-level `Equal` conditions. -/
def is_equal_cond : Condition → Bool
  | .Equal _ _ => true
  | _ => false

theorem first_equal_value_cons_eq (col col2 : String) (v : Value) (rest : List Condition) :
    first_equal_value (Condition.Equal col2 v :: rest) col =
      if col2 == col then some v else first_equal_value rest col := by
  simp only [first_equal_value, List.filterMap_cons]
  split <;> simp_all

theorem first_equal_value_cons_ne (c : Condition) (rest : List Condition) (col : String)
    (hc : is_equal_cond c = false) :
    first_equal_value (c :: rest) col = first_equal_value rest col := by
  cases c <;> simp_all [first_equal_value, List.filterMap_cons, is_equal_cond]

theorem first_equal_value_covers : ∀ (conds : List Condition) (col : String),
    (∃ v, Condition.Equal col v ∈ conds) →
    ∃ v0, first_equal_value conds col = some v0 ∧ Condition.Equal col v0 ∈ conds := by
  intro conds
  induction conds with
  | nil => intro col h; rcases h with ⟨v, hv⟩; cases hv
  | cons c rest ih =>
    intro col h
    by_cases hceq : is_equal_cond c = true
    · obtain ⟨col2, v2, rfl⟩ : ∃ col2 v2, c = Condition.Equal col2 v2 := by
        cases c <;> first
          | exact ⟨_, _, rfl⟩
          | simp [is_equal_cond] at hceq
      rw [first_equal_value_cons_eq]
      by_cases hcol : (col2 == col) = true
      · have : col2 = col := by simpa using hcol
        subst this
        exact ⟨v2, by simp, by simp⟩
      · rw [if_neg (by simpa using hcol)]
        have h2 : ∃ v, Condition.Equal col v ∈ rest := by
          rcases h with ⟨v, hv⟩
          rcases List.mem_cons.mp hv with h1 | h1
          · cases h1; exact absurd (by simp) hcol
          · exact ⟨v, h1⟩
        rcases ih col h2 with ⟨v0, hfe, hmem⟩
        exact ⟨v0, hfe, List.mem_cons_of_mem _ hmem⟩
    · rw [first_equal_value_cons_ne c rest col (by simpa using hceq)]
      have h2 : ∃ v, Condition.Equal col v ∈ rest := by
        rcases h with ⟨v, hv⟩
        rcases List.mem_cons.mp hv with h1 | h1
        · rw [← h1] at hceq; simp [is_equal_cond] at hceq
        · exact ⟨v, h1⟩
      rcases ih col h2 with ⟨v0, hfe, hmem⟩
      exact ⟨v0, hfe, List.mem_cons_of_mem _ hmem⟩

theorem filterMap_eq_map_of_mem {α β : Type} (l : List α) (f : α → Option β) (g : α → β)
    (h : ∀ a ∈ l, f a = some (g a)) : l.filterMap f = l.map g := by
  induction l with
  | nil => rfl
  | cons x t ih =>
    rw [List.filterMap_cons, h x (by simp), List.map_cons,
      ih (fun a ha => h a (by simp [ha]))]

/-- Any row satisfying a condition set whose `Equal` conditions cover the
index columns has exactly the lookup key the accelerated path derives. -/
theorem key_of_row_of_matches (schema : List Column) (idx_cols : List String)
    (conds : List Condition) (row : Row)
    (hcover : ∀ col ∈ idx_cols, ∃ v, Condition.Equal col v ∈ conds)
    (hmatch : conds.all (fun c => c.evaluate row schema) = true) :
    key_of_row schema idx_cols row = key_pattern idx_cols conds := by
  unfold key_of_row key_pattern
  symm
  apply filterMap_eq_map_of_mem
  intro col hcol
  rcases first_equal_value_covers conds col (hcover col hcol) with ⟨v0, hfe, hmem⟩
  rw [hfe]
  have heval : (Condition.Equal col v0).evaluate row schema = true :=
    List.all_eq_true.mp hmatch _ hmem
  unfold Condition.evaluate at heval
  cases hg : get_column_index schema col with
  | none => rw [hg] at heval; cases heval
  | some i =>
    rw [hg] at heval
    have hv : row.getD i Value.Null = v0 := by simpa using heval
    rw [← hv]

theorem index_lookup_entries_from (data : List Row) (schema : List Column)
    (idx_cols : List String) (conds : List Condition) (pat : List Value) :
    ∀ (rest : List Row) (base : Nat) (acc : List Row), data.drop base = rest →
      index_lookup data schema conds pat none acc (entries_from schema idx_cols base rest) =
        .ok (acc ++ rest.filter (fun r =>
          (key_of_row schema idx_cols r == pat)
            && conds.all (fun c => c.evaluate r schema))) := by
  intro rest
  induction rest with
  | nil => intro base acc _; simp [entries_from, index_lookup]
  | cons r rs ih =>
    intro base acc hdrop
    have hget : data.get? base = some r := by
      have h0 : (data.drop base).get? 0 = some r := by rw [hdrop]; rfl
      rwa [List.get?_eq_getElem?, List.getElem?_drop, Nat.add_zero,
        ← List.get?_eq_getElem?] at h0
    have hdrop2 : data.drop (base + 1) = rs := by
      have h1 : List.drop 1 (List.drop base data) = data.drop (base + 1) :=
        List.drop_drop 1 base data
      rw [hdrop] at h1
      simpa using h1.symm
    simp only [entries_from, index_lookup, at_limit_none, Bool.false_eq_true, if_false, hget]
    by_cases hkey : (key_of_row schema idx_cols r == pat) = true
    · rw [if_pos hkey]
      by_cases hm : (conds.all fun c => c.evaluate r schema) = true
      · rw [if_pos hm, ih (base + 1) (acc ++ [r]) hdrop2]
        simp [List.filter_cons, hkey, hm]
      · rw [if_neg hm, ih (base + 1) acc hdrop2]
        have hm2 : (conds.all fun c => c.evaluate r schema) = false := by
          revert hm; cases (conds.all fun c => c.evaluate r schema) <;> simp
        simp [List.filter_cons, hm2]
    · rw [if_neg hkey, ih (base + 1) acc hdrop2]
      have hk2 : (key_of_row schema idx_cols r == pat) = false := by
        revert hkey; cases (key_of_row schema idx_cols r == pat) <;> simp
      simp [List.filter_cons, hk2]

/-- The name of `Bool`-valued list filtering congruence used below. -/
theorem filter_congr_mem {α : Type} (l : List α) (p q : α → Bool)
    (h : ∀ x ∈ l, p x = q x) : l.filter p = l.filter q := by
  induction l with
  | nil => rfl
  | cons x t ih =>
    rw [List.filter_cons, List.filter_cons, h x (by simp),
      ih (fun a ha => h a (by simp [ha]))]

/-- C1: for every table, every index on a column set C whose index file holds
exactly the entries `create_index` builds over the existing rows and
`update_index` appends on each subsequent insert (`entries_of`; see
`insert_row_preserves_index_entries` and `create_index` for how such states
arise), and every list of top-level `Equal` conditions whose columns cover C,
`get_rows` with no limit returns through the index-accelerated path exactly
the rows (in file order, hence the same multiset) that the full scan with
the index dropped returns. -/
theorem index_scan_refines_full_scan
    (tbl : Table) (index_name : String) (idx : Index) (conds : List Condition) (tbl2 : Table)
    (hfind : tbl.indexes.find? (fun i => i.name == index_name) = some idx)
    (hentries : idx.entries = entries_of tbl.columns idx.columns tbl.data_file)
    (hEq : ∀ c ∈ conds, is_equal_cond c = true)
    (hcover : ∀ col ∈ idx.columns, ∃ v, Condition.Equal col v ∈ conds)
    (hdrop : drop_index tbl index_name = .ok tbl2) :
    get_rows_using_index tbl index_name conds none = .ok (full_scan tbl2 (some conds) none) := by
  have htbl2 : tbl2.columns = tbl.columns ∧ tbl2.data_file = tbl.data_file := by
    unfold drop_index at hdrop
    split at hdrop
    · cases hdrop; exact ⟨rfl, rfl⟩
    · cases hdrop
  unfold get_rows_using_index
  rw [hfind]
  dsimp only
  rw [hentries]
  unfold entries_of
  rw [index_lookup_entries_from tbl.data_file tbl.columns idx.columns conds _
    tbl.data_file 0 [] (by simp)]
  rw [full_scan_eq, htbl2.1, htbl2.2]
  simp only [limit_take, List.nil_append]
  congr 1
  apply filter_congr_mem
  intro r _
  by_cases hm : (conds.all fun c => c.evaluate r tbl.columns) = true
  · rw [key_of_row_of_matches tbl.columns idx.columns conds r hcover hm]
    simp [row_matches, hm]
  · have hm2 : (conds.all fun c => c.evaluate r tbl.columns) = false := by
      revert hm; cases (conds.all fun c => c.evaluate r tbl.columns) <;> simp
    simp [row_matches, hm2]

def c1_columns : List Column := [⟨"a", .Integer⟩, ⟨"b", .Integer⟩]

def c1_data : List Row :=
  [[.Integer 1, .Integer 10], [.Integer 2, .Integer 20], [.Integer 1, .Integer 30]]

def c1_table : Table :=
  { columns := c1_columns, row_count := 3,
    indexes := [⟨"idx", ["a"], entries_of c1_columns ["a"] c1_data⟩],
    data_file := c1_data }

def c1_dropped : Table :=
  { columns := c1_columns, row_count := 3, indexes := [], data_file := c1_data }

theorem index_scan_refines_full_scan_witness :
    get_rows_using_index c1_table "idx" [Condition.Equal "a" (Value.Integer 1)] none =
        .ok (full_scan c1_dropped (some [Condition.Equal "a" (Value.Integer 1)]) none) ∧
      full_scan c1_dropped (some [Condition.Equal "a" (Value.Integer 1)]) none =
        [[Value.Integer 1, Value.Integer 10], [Value.Integer 1, Value.Integer 30]] := by
  constructor
  · exact index_scan_refines_full_scan c1_table "idx"
      ⟨"idx", ["a"], entries_of c1_columns ["a"] c1_data⟩
      [Condition.Equal "a" (Value.Integer 1)] c1_dropped
      (by decide) (by decide) (by decide)
      (by intro col hcol
          simp only [List.mem_singleton] at hcol
          subst hcol
          exact ⟨Value.Integer 1, by simp⟩)
      (by decide)
  · decide

/-! ## Claim C2: index selection and non-Equal conditions -/

theorem condition_columns_filter_equal (conds : List Condition) :
    condition_columns (conds.filter is_equal_cond) = condition_columns conds := by
  induction conds with
  | nil => rfl
  | cons c rest ih =>
    cases c <;>
      simp [condition_columns, is_equal_cond, List.filter_cons, List.filterMap_cons, ih] <;>
      exact ih

/-- C2 counterexample: on a table with an index on `b`, the condition list
`[a > 0, b = 3]` contains a top-level non-Equal condition, yet an index IS
selected and the query is answered through the accelerated path — observably
so: with a (stale) empty index file the indexed answer is `[]` while the
full scan finds the matching row. -/
theorem non_equal_conditions_counterexample :
    find_usable_index
        { columns := [⟨"a", .Integer⟩, ⟨"b", .Integer⟩], row_count := 1,
          indexes := [⟨"idx", ["b"], []⟩],
          data_file := [[.Integer 1, .Integer 3]] }
        [.GreaterThan "a" (.Integer 0), .Equal "b" (.Integer 3)] = some "idx" ∧
      get_rows
        { columns := [⟨"a", .Integer⟩, ⟨"b", .Integer⟩], row_count := 1,
          indexes := [⟨"idx", ["b"], []⟩],
          data_file := [[.Integer 1, .Integer 3]] }
        ["*"] (some [.GreaterThan "a" (.Integer 0), .Equal "b" (.Integer 3)]) none none =
        .ok [] ∧
      full_scan
        { columns := [⟨"a", .Integer⟩, ⟨"b", .Integer⟩], row_count := 1,
          indexes := [⟨"idx", ["b"], []⟩],
          data_file := [[.Integer 1, .Integer 3]] }
        (some [.GreaterThan "a" (.Integer 0), .Equal "b" (.Integer 3)]) none =
        [[.Integer 1, .Integer 3]] := by
  exact ⟨by decide, by decide, by decide⟩

/-- C2 amended: non-Equal top-level conditions are ignored by index
selection rather than disabling it: `find_usable_index` gives the same
answer on a condition list as on its sublist of `Equal` conditions (so an
index is selected precisely when some index's nonempty column set is covered
by the `Equal`-compared columns, regardless of other top-level conditions;
in particular a list with no `Equal` condition at all selects no index). -/
theorem find_usable_index_ignores_non_equal (tbl : Table) (conds : List Condition) :
    find_usable_index tbl conds = find_usable_index tbl (conds.filter is_equal_cond) := by
  unfold find_usable_index
  rw [condition_columns_filter_equal]

/-! ## Claim C7: limits bound the result size -/

theorem index_lookup_length_le (data : List Row) (columns : List Column) (conds : List Condition)
    (pat : List Value) (n : Nat) :
    ∀ (entries : List (List Value × Nat)) (acc out : List Row), acc.length ≤ n →
      index_lookup data columns conds pat (some n) acc entries = .ok out → out.length ≤ n := by
  intro entries
  induction entries with
  | nil =>
    intro acc out hle hok
    cases hok
    exact hle
  | cons e rest ih =>
    intro acc out hle hok
    obtain ⟨key, off⟩ := e
    simp only [index_lookup] at hok
    by_cases hal : at_limit (some n) acc.length = true
    · rw [if_pos hal] at hok
      cases hok
      exact hle
    · rw [if_neg hal] at hok
      have hlt : acc.length < n := by
        simp only [at_limit_some, decide_eq_true_eq] at hal
        omega
      by_cases hkey : (key == pat) = true
      · rw [if_pos hkey] at hok
        cases hget : data.get? off with
        | none => rw [hget] at hok; cases hok
        | some row =>
          rw [hget] at hok
          dsimp only at hok
          by_cases hm : (conds.all fun c => c.evaluate row columns) = true
          · rw [if_pos hm] at hok
            exact ih (acc ++ [row]) out (by simp; omega) hok
          · rw [if_neg hm] at hok
            exact ih acc out hle hok
      · rw [if_neg hkey] at hok
        exact ih acc out hle hok

theorem sort_by_insert_length {α : Type} (le : α → α → Bool) (x : α) :
    ∀ l : List α, (sort_by_insert le x l).length = l.length + 1 := by
  intro l
  induction l with
  | nil => rfl
  | cons y ys ih =>
    unfold sort_by_insert
    split
    · simp
    · simp [ih]

theorem sort_by_length {α : Type} (le : α → α → Bool) :
    ∀ l : List α, (sort_by le l).length = l.length := by
  intro l
  induction l with
  | nil => rfl
  | cons x t ih =>
    show (sort_by_insert le x (sort_by le t)).length = t.length + 1
    rw [sort_by_insert_length, ih]

theorem project_rows_length (columns : List Column) (requested : List String) :
    ∀ (rows out : List Row), project_rows columns requested rows = .ok out →
      out.length = rows.length := by
  intro rows
  induction rows with
  | nil => intro out h; cases h; rfl
  | cons r rs ih =>
    intro out h
    simp only [project_rows] at h
    cases hpr : project_row columns requested r with
    | error e => rw [hpr] at h; cases h
    | ok pr =>
      rw [hpr] at h
      cases hprs : project_rows columns requested rs with
      | error e => rw [hprs] at h; cases h
      | ok prs =>
        rw [hprs] at h
        cases h
        simp [ih prs hprs]

theorem scanned_rows_length_le (tbl : Table) (conds : Option (List Condition)) (n : Nat)
    (out : List Row) (hok : scanned_rows tbl conds (some n) = .ok out) : out.length ≤ n := by
  unfold scanned_rows at hok
  cases hui : use_index tbl conds with
  | none =>
    rw [hui] at hok
    cases hok
    rw [full_scan_eq]
    simp [limit_take]
  | some index_name =>
    rw [hui] at hok
    dsimp only at hok
    unfold get_rows_using_index at hok
    cases hfind : tbl.indexes.find? (fun idx => idx.name == index_name) with
    | none => rw [hfind] at hok; cases hok
    | some index =>
      rw [hfind] at hok
      dsimp only at hok
      exact index_lookup_length_le tbl.data_file tbl.columns (conds.getD [])
        (key_pattern index.columns (conds.getD [])) n index.entries [] out (by simp) hok

theorem sorted_rows_length_le (tbl : Table) (conds : Option (List Condition))
    (ob : Option OrderBy) (n : Nat) (out : List Row)
    (hok : sorted_rows tbl conds ob (some n) = .ok out) : out.length ≤ n := by
  unfold sorted_rows at hok
  cases hsc : scanned_rows tbl conds (some n) with
  | error e => rw [hsc] at hok; cases hok
  | ok scanned =>
    rw [hsc] at hok
    have hlen := scanned_rows_length_le tbl conds n scanned hsc
    cases ob with
    | none => cases hok; exact hlen
    | some o =>
      dsimp only at hok
      cases hg : get_column_index tbl.columns o.column with
      | none => rw [hg] at hok; cases hok
      | some i =>
        rw [hg] at hok
        cases hok
        unfold sort_result
        rw [sort_by_length]
        exact hlen

/-- C7: for every `get_rows` call with limit `n` that succeeds, at most `n`
rows are returned, on both the index-accelerated and the full-scan path and
for any table contents, conditions, ordering and projection; in particular
limit `0` yields the empty result set. -/
theorem get_rows_limit_bound (tbl : Table) (cols : List String)
    (conds : Option (List Condition)) (ob : Option OrderBy) (n : Nat) (rows : List Row)
    (hok : get_rows tbl cols conds ob (some n) = .ok rows) : rows.length ≤ n := by
  unfold get_rows at hok
  cases hs : sorted_rows tbl conds ob (some n) with
  | error e => rw [hs] at hok; cases hok
  | ok sorted =>
    rw [hs] at hok
    have hlen := sorted_rows_length_le tbl conds ob n sorted hs
    cases cols with
    | nil => cases hok; exact hlen
    | cons c0 cs =>
      dsimp only at hok
      by_cases hstar : (c0 == "*") = true
      · rw [if_pos hstar] at hok
        cases hok
        exact hlen
      · rw [if_neg hstar] at hok
        rw [project_rows_length tbl.columns (c0 :: cs) sorted rows hok]
        exact hlen

theorem get_rows_limit_bound_witness :
    get_rows c1_table ["*"] none none (some 1) = .ok [[Value.Integer 1, Value.Integer 10]] ∧
      ([[Value.Integer 1, Value.Integer 10]] : List Row).length ≤ 1 :=
  ⟨by decide, get_rows_limit_bound c1_table ["*"] none none 1 _ (by decide)⟩

/-! ## Claim C9: conditions on unknown columns -/

theorem get_column_index_none (columns : List Column) (cname : String)
    (h : ∀ col ∈ columns, ¬ col.name = cname) : get_column_index columns cname = none := by
  unfold get_column_index
  rw [List.findIdx?_eq_none_iff]
  intro col hcol
  simpa using h col hcol

theorem evaluate_unknown_column (c : Condition) (cname : String) (row : Row)
    (columns : List Column) (hcc : condition_column c = some cname)
    (habs : ∀ col ∈ columns, ¬ col.name = cname) :
    c.evaluate row columns = false := by
  have hnone := get_column_index_none columns cname habs
  cases c <;> simp [condition_column] at hcc <;> subst hcc <;>
    simp [Condition.evaluate, hnone]

theorem index_lookup_all_false (data : List Row) (columns : List Column)
    (conds : List Condition) (pat : List Value) (lim : Option Nat)
    (hmatch : ∀ row : Row, (conds.all fun c => c.evaluate row columns) = false) :
    ∀ entries : List (List Value × Nat), (∀ e ∈ entries, e.2 < data.length) →
      index_lookup data columns conds pat lim [] entries = .ok [] := by
  intro entries
  induction entries with
  | nil => intro _; rfl
  | cons e rest ih =>
    intro hoff
    obtain ⟨key, off⟩ := e
    simp only [index_lookup]
    by_cases hal : at_limit lim 0 = true
    · rw [if_pos (by simpa using hal)]
    · rw [if_neg (by simpa using hal)]
      by_cases hkey : (key == pat) = true
      · rw [if_pos hkey]
        have hlt : off < data.length := hoff (key, off) (by simp)
        obtain ⟨row, hrow⟩ : ∃ row, data.get? off = some row :=
          ⟨data.get ⟨off, hlt⟩, List.get?_eq_get hlt⟩
        rw [hrow]
        dsimp only
        rw [if_neg (by simp [hmatch row])]
        exact ih (fun e he => hoff e (by simp [he]))
      · rw [if_neg hkey]
        exact ih (fun e he => hoff e (by simp [he]))

theorem get_rows_unknown_column_empty (tbl : Table) (reqCols : List String)
    (conds : List Condition) (lim : Option Nat) (c : Condition) (cname : String)
    (hc : c ∈ conds) (hcc : condition_column c = some cname)
    (habs : ∀ col ∈ tbl.columns, ¬ col.name = cname)
    (hoff : ∀ idx ∈ tbl.indexes, ∀ e ∈ idx.entries, e.2 < tbl.data_file.length) :
    get_rows tbl reqCols (some conds) none lim = .ok [] := by
  have hmatch : ∀ row : Row, (conds.all fun c2 => c2.evaluate row tbl.columns) = false := by
    intro row
    cases hall : (conds.all fun c2 => c2.evaluate row tbl.columns)
    · rfl
    · exact absurd (List.all_eq_true.mp hall c hc)
        (by rw [evaluate_unknown_column c cname row tbl.columns hcc habs]; simp)
  have hscan : scanned_rows tbl (some conds) lim = .ok [] := by
    unfold scanned_rows
    cases hui : use_index tbl (some conds) with
    | none =>
      dsimp only
      rw [full_scan_eq]
      have : tbl.data_file.filter (row_matches tbl.columns (some conds)) = [] := by
        rw [List.filter_eq_nil]
        intro row _
        simp [row_matches, hmatch row]
      rw [this, limit_take_nil]
    | some index_name =>
      dsimp only
      unfold use_index find_usable_index at hui
      dsimp only at hui
      cases hfind0 : tbl.indexes.find? (fun idx =>
          idx.columns.all (fun c2 => (condition_columns conds).contains c2)
            && !idx.columns.isEmpty) with
      | none => rw [hfind0] at hui; cases hui
      | some idx0 =>
        rw [hfind0] at hui
        have hname : idx0.name = index_name := by simpa using hui
        have hmem0 : idx0 ∈ tbl.indexes := List.mem_of_find?_eq_some hfind0
        have hfindsome : (tbl.indexes.find? (fun idx => idx.name == index_name)).isSome := by
          rw [List.find?_isSome]
          exact ⟨idx0, hmem0, by simp [hname]⟩
        unfold get_rows_using_index
        cases hfind : tbl.indexes.find? (fun idx => idx.name == index_name) with
        | none => rw [hfind] at hfindsome; cases hfindsome
        | some index =>
          dsimp only
          simp only [Option.getD_some]
          have hmemi : index ∈ tbl.indexes := List.mem_of_find?_eq_some hfind
          rw [index_lookup_all_false tbl.data_file tbl.columns conds
            (key_pattern index.columns conds) lim (by simpa using hmatch)
            index.entries (hoff index hmemi)]
  unfold get_rows sorted_rows
  rw [hscan]
  dsimp only
  cases reqCols with
  | nil => rfl
  | cons c0 cs =>
    dsimp only
    by_cases hstar : (c0 == "*") = true
    · rw [if_pos hstar]
    · rw [if_neg hstar]
      rfl

/-- C9: `Condition::evaluate` returns `false` for every leaf condition whose
column name does not occur in the schema — including the negative forms
`NotEqual` and `IsNotNull` — so a `get_rows` call whose WHERE list contains
such a condition returns an empty result set (not a ColumnNotFound error),
whichever scan path is taken (index files assumed well-formed: offsets in
range, as every state produced by the storage operations satisfies). -/
theorem unknown_column_false_and_empty :
    (∀ (c : Condition) (cname : String) (row : Row) (columns : List Column),
        condition_column c = some cname → (∀ col ∈ columns, ¬ col.name = cname) →
        c.evaluate row columns = false) ∧
      (∀ (tbl : Table) (reqCols : List String) (conds : List Condition) (lim : Option Nat)
          (c : Condition) (cname : String), c ∈ conds → condition_column c = some cname →
          (∀ col ∈ tbl.columns, ¬ col.name = cname) →
          (∀ idx ∈ tbl.indexes, ∀ e ∈ idx.entries, e.2 < tbl.data_file.length) →
          get_rows tbl reqCols (some conds) none lim = .ok []) :=
  ⟨fun c cname row columns hcc habs => evaluate_unknown_column c cname row columns hcc habs,
   fun tbl reqCols conds lim c cname hc hcc habs hoff =>
     get_rows_unknown_column_empty tbl reqCols conds lim c cname hc hcc habs hoff⟩

theorem unknown_column_false_and_empty_witness :
    Condition.evaluate (.IsNotNull "zzz") [Value.Integer 5] c1_columns = false ∧
      get_rows c1_table ["*"] (some [Condition.NotEqual "zzz" (Value.Integer 1)]) none none =
        .ok [] :=
  ⟨unknown_column_false_and_empty.1 (.IsNotNull "zzz") "zzz" [Value.Integer 5] c1_columns
     rfl (by decide),
   unknown_column_false_and_empty.2 c1_table ["*"] [Condition.NotEqual "zzz" (Value.Integer 1)]
     none (Condition.NotEqual "zzz" (Value.Integer 1)) "zzz" (by simp) rfl
     (by decide) (by decide)⟩

/-! ## Claims C3 and C10: insert_row -/

/-- Spec-side per-value type conformance: a non-null value's variant must
match the column's declared type; `Null` is accepted for every type. -/
def type_matches (v : Value) (dt : DataType) : Bool :=
  match v, dt with
  | .Null, _ => true
  | .Integer _, .Integer => true
  | .Text _, .Text => true
  | .Boolean _, .Boolean => true
  | .Real _, .Real => true
  | _, _ => false

/-- Spec-side row conformance: every value matches its column. -/
def types_ok (values : List Value) (schema : List Column) : Bool :=
  (values.zip schema).all (fun p => type_matches p.1 p.2.data_type)

/-- The values actually written by `insert_row`: schema-reordered
(Null-filled) under an explicit column list, the given list otherwise. -/
def final_values (schema : List Column) (cols? : Option (List String)) (values : List Value) :
    List Value :=
  match cols? with
  | some col_names => reorder_values schema col_names values
  | none => values

/-- The count check `insert_row` performs: explicit list length against the
value count, or schema length against the value count. -/
def count_ok (schema : List Column) (cols? : Option (List String)) (values : List Value) : Bool :=
  match cols? with
  | some col_names => col_names.length == values.length
  | none => schema.length == values.length

theorem type_check_ok_iff : ∀ (values : List Value) (schema : List Column),
    type_check values schema = .ok () ↔ types_ok values schema = true := by
  intro values
  induction values with
  | nil => intro schema; simp [type_check, types_ok]
  | cons v vs ih =>
    intro schema
    cases schema with
    | nil => simp [type_check, types_ok]
    | cons c cs =>
      have hzip : types_ok (v :: vs) (c :: cs) =
          (type_matches v c.data_type && types_ok vs cs) := by
        simp [types_ok, type_matches]
      rw [hzip]
      cases v <;> cases hdt : c.data_type <;>
        simp [type_check, hdt, type_matches, ih cs]

theorem type_check_error_shape : ∀ (values : List Value) (schema : List Column) (e : StorageError),
    type_check values schema = .error e → ∃ v dt, e = .TypeMismatch v dt := by
  intro values
  induction values with
  | nil => intro schema e h; cases h
  | cons v vs ih =>
    intro schema e h
    cases schema with
    | nil => cases h
    | cons c cs =>
      revert h
      cases v <;> cases hdt : c.data_type <;> simp [type_check, hdt] <;>
        first
          | exact fun h => ih cs e h
          | exact fun h => ⟨_, _, h.symm⟩

theorem index_key_values_ok (schema : List Column) (values : List Value) :
    ∀ cols : List String, (∀ cn ∈ cols, (get_column_index schema cn).isSome) →
      index_key_values schema values cols = .ok (key_of_row schema cols values) := by
  intro cols
  induction cols with
  | nil => intro _; rfl
  | cons cn rest ih =>
    intro h
    have hsome := h cn (by simp)
    cases hg : get_column_index schema cn with
    | none => rw [hg] at hsome; cases hsome
    | some i =>
      simp only [index_key_values, hg, ih (fun c hc => h c (by simp [hc])), key_of_row,
        List.map_cons]

theorem index_key_values_error_shape (schema : List Column) (values : List Value) :
    ∀ (cols : List String) (e : StorageError),
      index_key_values schema values cols = .error e → e = .IndexColumnNotFound := by
  intro cols
  induction cols with
  | nil => intro e h; cases h
  | cons cn rest ih =>
    intro e h
    simp only [index_key_values] at h
    cases hg : get_column_index schema cn with
    | none => rw [hg] at h; cases h; rfl
    | some i =>
      rw [hg] at h
      cases hk : index_key_values schema values rest with
      | error e2 => rw [hk] at h; cases h; exact ih _ hk
      | ok vs => rw [hk] at h; cases h

theorem update_index_ok (tbl : Table) (iname : String) (values : List Value) (position : Nat)
    (idx : Index) (hfind : tbl.indexes.find? (fun i => i.name == iname) = some idx)
    (hcols : ∀ cn ∈ idx.columns, (get_column_index tbl.columns cn).isSome) :
    update_index tbl iname values position =
      .ok { tbl with indexes := tbl.indexes.map (fun i =>
        if i.name == iname then
          { i with entries := i.entries ++ [(key_of_row tbl.columns idx.columns values, position)] }
        else i) } := by
  unfold update_index
  rw [hfind]
  dsimp only
  rw [index_key_values_ok tbl.columns values idx.columns hcols]

theorem update_index_error_shape (tbl : Table) (iname : String) (values : List Value)
    (position : Nat) (e : StorageError) (h : update_index tbl iname values position = .error e) :
    e = .IndexNotFound ∨ e = .IndexColumnNotFound := by
  unfold update_index at h
  cases hfind : tbl.indexes.find? (fun i => i.name == iname) with
  | none => rw [hfind] at h; cases h; exact Or.inl rfl
  | some idx =>
    rw [hfind] at h
    dsimp only at h
    cases hk : index_key_values tbl.columns values idx.columns with
    | error e2 =>
      rw [hk] at h
      cases h
      exact Or.inr (index_key_values_error_shape tbl.columns values idx.columns _ hk)
    | ok vs => rw [hk] at h; cases h

theorem insert_indexes_error_shape (values : List Value) (position : Nat) :
    ∀ (names : List String) (tbl tbl2 : Table) (e : StorageError),
      insert_indexes names values position tbl = (.error e, tbl2) →
      e = .IndexNotFound ∨ e = .IndexColumnNotFound := by
  intro names
  induction names with
  | nil => intro tbl tbl2 e h; cases h
  | cons nm rest ih =>
    intro tbl tbl2 e h
    simp only [insert_indexes] at h
    cases hu : update_index tbl nm values position with
    | error e2 =>
      rw [hu] at h
      cases h
      exact update_index_error_shape tbl nm values position _ hu
    | ok tblU =>
      rw [hu] at h
      exact ih tblU tbl2 e h

theorem insert_indexes_ok (values : List Value) (position : Nat) :
    ∀ (names : List String) (tbl : Table),
      (∀ nm ∈ names, (tbl.indexes.find? (fun i => i.name == nm)).isSome) →
      (∀ idx ∈ tbl.indexes, ∀ cn ∈ idx.columns, (get_column_index tbl.columns cn).isSome) →
      ∃ tbl2, insert_indexes names values position tbl = (.ok (), tbl2) ∧
        tbl2.columns = tbl.columns ∧ tbl2.data_file = tbl.data_file ∧
        tbl2.row_count = tbl.row_count := by
  intro names
  induction names with
  | nil => intro tbl _ _; exact ⟨tbl, rfl, rfl, rfl, rfl⟩
  | cons nm rest ih =>
    intro tbl hnames hwf
    have hsome := hnames nm (by simp)
    cases hfind : tbl.indexes.find? (fun i => i.name == nm) with
    | none => rw [hfind] at hsome; cases hsome
    | some idx =>
      have hu := update_index_ok tbl nm values position idx hfind
        (hwf idx (List.mem_of_find?_eq_some hfind))
      set f : Index → Index := fun i =>
        if i.name == nm then
          { i with entries := i.entries ++ [(key_of_row tbl.columns idx.columns values, position)] }
        else i with hf
      have hfname : ∀ i : Index, (f i).name = i.name := by
        intro i; rw [hf]; dsimp only; split <;> rfl
      have hfcols : ∀ i : Index, (f i).columns = i.columns := by
        intro i; rw [hf]; dsimp only; split <;> rfl
      set tblU : Table := { tbl with indexes := tbl.indexes.map f } with htblU
      have hnames2 : ∀ nm2 ∈ rest, (tblU.indexes.find? (fun i => i.name == nm2)).isSome := by
        intro nm2 hmem
        have := hnames nm2 (by simp [hmem])
        rw [List.find?_isSome] at this ⊢
        rcases this with ⟨x, hx, hpx⟩
        exact ⟨f x, by simp [htblU]; exact ⟨x, hx, rfl⟩, by rw [hfname]; exact hpx⟩
      have hwf2 : ∀ idx2 ∈ tblU.indexes, ∀ cn ∈ idx2.columns,
          (get_column_index tblU.columns cn).isSome := by
        intro idx2 hmem2 cn hcn
        simp only [htblU, List.mem_map] at hmem2
        rcases hmem2 with ⟨x, hx, rfl⟩
        rw [hfcols] at hcn
        exact hwf x hx cn hcn
      rcases ih tblU hnames2 hwf2 with ⟨tbl2, hok, hc2, hd2, hr2⟩
      refine ⟨tbl2, ?_, ?_, ?_, ?_⟩
      · simp only [insert_indexes, hu]
        exact hok
      · rw [hc2]
      · rw [hd2]
      · rw [hr2]

theorem insert_row_checked_ok (tbl : Table) (values : List Value)
    (hwf : ∀ idx ∈ tbl.indexes, ∀ cn ∈ idx.columns, (get_column_index tbl.columns cn).isSome)
    (hty : types_ok values tbl.columns = true) :
    ∃ tbl2, insert_row_checked tbl values = (.ok (), tbl2) ∧
      tbl2.data_file = tbl.data_file ++ [values] ∧ tbl2.columns = tbl.columns ∧
      tbl2.row_count = tbl.row_count + 1 := by
  have htc : type_check values tbl.columns = .ok () := (type_check_ok_iff _ _).mpr hty
  unfold insert_row_checked
  rw [htc]
  dsimp only
  rcases insert_indexes_ok values tbl.data_file.length (tbl.indexes.map fun i => i.name)
      ⟨tbl.columns, tbl.row_count + 1, tbl.indexes, tbl.data_file ++ [values]⟩
      (by intro nm hmem
          rw [List.find?_isSome]
          simp only [List.mem_map] at hmem
          rcases hmem with ⟨x, hx, rfl⟩
          exact ⟨x, hx, by simp⟩)
      (by intro idx hidx cn hcn
          exact hwf idx hidx cn hcn)
    with ⟨tbl2, hok, hc, hd, hr⟩
  exact ⟨tbl2, hok, by rw [hd], by rw [hc], by rw [hr]⟩

theorem insert_row_checked_fst_error (tbl : Table) (values : List Value)
    (hty : types_ok values tbl.columns = false) :
    ∃ v dt, insert_row_checked tbl values = (.error (.TypeMismatch v dt), tbl) := by
  cases htc : type_check values tbl.columns with
  | ok u =>
    cases u
    rw [type_check_ok_iff values tbl.columns] at htc
    rw [htc] at hty
    cases hty
  | error e =>
    rcases type_check_error_shape values tbl.columns e htc with ⟨v, dt, rfl⟩
    refine ⟨v, dt, ?_⟩
    unfold insert_row_checked
    rw [htc]

theorem entries_from_append (schema : List Column) (cols : List String) :
    ∀ (data : List Row) (base : Nat) (r : Row),
      entries_from schema cols base (data ++ [r]) =
        entries_from schema cols base data ++
          [(key_of_row schema cols r, base + data.length)] := by
  intro data
  induction data with
  | nil => intro base r; simp [entries_from]
  | cons d ds ih =>
    intro base r
    have hstep : entries_from schema cols base ((d :: ds) ++ [r]) =
        (key_of_row schema cols d, base) :: entries_from schema cols (base + 1) (ds ++ [r]) :=
      rfl
    rw [hstep, ih (base + 1)]
    have harith : base + 1 + ds.length = base + (d :: ds).length := by
      rw [List.length_cons]
      omega
    rw [harith]
    rfl

theorem insert_indexes_entries (values : List Value) (position : Nat) :
    ∀ (names : List String) (tbl : Table),
      (∀ nm ∈ names, (tbl.indexes.find? (fun i => i.name == nm)).isSome) →
      (∀ idx ∈ tbl.indexes, ∀ cn ∈ idx.columns, (get_column_index tbl.columns cn).isSome) →
      names.Nodup →
      (tbl.indexes.map (fun i => i.name)).Nodup →
      ∃ tbl2, insert_indexes names values position tbl = (.ok (), tbl2) ∧
        tbl2.columns = tbl.columns ∧ tbl2.data_file = tbl.data_file ∧
        tbl2.row_count = tbl.row_count ∧
        tbl2.indexes = tbl.indexes.map (fun i =>
          if names.contains i.name then
            { i with entries :=
              i.entries ++ [(key_of_row tbl.columns i.columns values, position)] }
          else i) := by
  intro names
  induction names with
  | nil =>
    intro tbl _ _ _ _
    refine ⟨tbl, rfl, rfl, rfl, rfl, ?_⟩
    simp
  | cons nm rest ih =>
    intro tbl hnames hwf hnd hnd2
    have hsome := hnames nm (by simp)
    cases hfind : tbl.indexes.find? (fun i => i.name == nm) with
    | none => rw [hfind] at hsome; cases hsome
    | some idx =>
      have hidxmem : idx ∈ tbl.indexes := List.mem_of_find?_eq_some hfind
      have hidxname : idx.name = nm :=
        eq_of_beq (List.find?_some (p := fun i : Index => i.name == nm) hfind)
      have hu := update_index_ok tbl nm values position idx hfind
        (hwf idx hidxmem)
      set f : Index → Index := fun i =>
        if i.name == nm then
          { i with entries := i.entries ++ [(key_of_row tbl.columns idx.columns values, position)] }
        else i with hf
      have hfname : ∀ i : Index, (f i).name = i.name := by
        intro i; rw [hf]; dsimp only; split <;> rfl
      have hfcols : ∀ i : Index, (f i).columns = i.columns := by
        intro i; rw [hf]; dsimp only; split <;> rfl
      set tblU : Table := { tbl with indexes := tbl.indexes.map f } with htblU
      have hnames2 : ∀ nm2 ∈ rest, (tblU.indexes.find? (fun i => i.name == nm2)).isSome := by
        intro nm2 hmem
        have := hnames nm2 (by simp [hmem])
        rw [List.find?_isSome] at this ⊢
        rcases this with ⟨x, hx, hpx⟩
        exact ⟨f x, by simp [htblU]; exact ⟨x, hx, rfl⟩, by rw [hfname]; exact hpx⟩
      have hwf2 : ∀ idx2 ∈ tblU.indexes, ∀ cn ∈ idx2.columns,
          (get_column_index tblU.columns cn).isSome := by
        intro idx2 hmem2 cn hcn
        simp only [htblU, List.mem_map] at hmem2
        rcases hmem2 with ⟨x, hx, rfl⟩
        rw [hfcols] at hcn
        exact hwf x hx cn hcn
      have hmapname : tblU.indexes.map (fun i => i.name) =
          tbl.indexes.map (fun i => i.name) := by
        simp only [htblU, List.map_map]
        exact List.map_congr_left (fun i _ => hfname i)
      rcases ih tblU hnames2 hwf2 hnd.of_cons (by rw [hmapname]; exact hnd2)
        with ⟨tbl2, hok, hc2, hd2, hr2, hi2⟩
      have hnm_not_rest : ¬ nm ∈ rest := (List.nodup_cons.mp hnd).1
      refine ⟨tbl2, ?_, ?_, ?_, ?_, ?_⟩
      · simp only [insert_indexes, hu]
        exact hok
      · rw [hc2]
      · rw [hd2]
      · rw [hr2]
      · rw [hi2]
        simp only [htblU, List.map_map]
        apply List.map_congr_left
        intro i hi
        simp only [Function.comp]
        by_cases hcase : i.name = nm
        · have hieq : i = idx :=
            List.inj_on_of_nodup_map hnd2 hi hidxmem (by rw [hcase, hidxname])
          have hbeq : (i.name == nm) = true := by rw [hcase]; exact beq_self_eq_true nm
          have hcontains : rest.contains i.name = false := by
            rw [hcase, ← Bool.not_eq_true]
            intro hc
            exact hnm_not_rest (List.mem_of_elem_eq_true hc)
          rw [hf]
          dsimp only
          rw [hbeq, if_pos rfl]
          dsimp only
          rw [hcontains, if_neg Bool.false_ne_true]
          rw [show ((nm :: rest).contains i.name) = true from by
            rw [List.contains_cons, hbeq, Bool.true_or]]
          rw [if_pos rfl, hieq]
        · have hbeq : (i.name == nm) = false := by
            rw [beq_eq_false_iff_ne]
            exact hcase
          rw [hf]
          dsimp only
          rw [hbeq, if_neg Bool.false_ne_true]
          rw [show ((nm :: rest).contains i.name) = rest.contains i.name from by
            rw [List.contains_cons, hbeq, Bool.false_or]]

theorem insert_row_checked_entries (tbl : Table) (values : List Value)
    (hwf : ∀ idx ∈ tbl.indexes, ∀ cn ∈ idx.columns, (get_column_index tbl.columns cn).isSome)
    (hnd2 : (tbl.indexes.map (fun i => i.name)).Nodup)
    (hty : types_ok values tbl.columns = true) :
    insert_row_checked tbl values = (.ok (),
      ⟨tbl.columns, tbl.row_count + 1,
        tbl.indexes.map (fun i => { i with entries := i.entries ++
          [(key_of_row tbl.columns i.columns values, tbl.data_file.length)] }),
        tbl.data_file ++ [values]⟩) := by
  have htc : type_check values tbl.columns = .ok () := (type_check_ok_iff _ _).mpr hty
  unfold insert_row_checked
  rw [htc]
  dsimp only
  set tblA : Table := ⟨tbl.columns, tbl.row_count + 1, tbl.indexes, tbl.data_file ++ [values]⟩
    with htblA
  rcases insert_indexes_entries values tbl.data_file.length
      (tblA.indexes.map fun i => i.name) tblA
      (by intro nm hmem
          rw [List.find?_isSome]
          simp only [List.mem_map] at hmem
          rcases hmem with ⟨x, hx, rfl⟩
          exact ⟨x, hx, by simp⟩)
      (by intro idx hidx cn hcn
          exact hwf idx hidx cn hcn)
      hnd2 hnd2
    with ⟨tbl2, hok, hc, hd, hr, hi⟩
  rw [hok]
  have hall : tblA.indexes.map (fun i =>
      if (tblA.indexes.map (fun j => j.name)).contains i.name then
        { i with entries :=
          i.entries ++ [(key_of_row tblA.columns i.columns values, tbl.data_file.length)] }
      else i) =
      tbl.indexes.map (fun i => { i with entries := i.entries ++
        [(key_of_row tbl.columns i.columns values, tbl.data_file.length)] }) := by
    apply List.map_congr_left
    intro i hi2
    rw [show ((tblA.indexes.map (fun j => j.name)).contains i.name) = true from by
      rw [← Bool.not_eq_false]
      intro hc2
      rw [← Bool.not_eq_true] at hc2
      exact hc2 (List.elem_eq_true_of_mem (List.mem_map_of_mem (fun j => j.name) hi2))]
    rw [if_pos rfl]
  rw [hall] at hi
  have h2 : tbl2 = ⟨tbl.columns, tbl.row_count + 1,
      tbl.indexes.map (fun i => { i with entries := i.entries ++
        [(key_of_row tbl.columns i.columns values, tbl.data_file.length)] }),
      tbl.data_file ++ [values]⟩ := by
    cases tbl2 with
    | mk c r ix d =>
      dsimp only at hc hd hr hi
      rw [hc, hd, hr, hi]
  rw [h2]

/-- On a successful `insert_row`, every index file that held exactly the
`entries_of` entries for the old data file (the state `create_index`
establishes) again holds exactly the `entries_of` entries for the extended
data file: `update_index` appends precisely the missing `(key, offset)`
entry of the new row.  This discharges the reachability of hypothesis
`hentries` of `index_scan_refines_full_scan` across inserts, given
well-formed, uniquely named indexes. -/
theorem insert_row_preserves_index_entries (tbl : Table) (cols : Option (List String))
    (values : List Value) (tbl2 : Table)
    (hnd2 : (tbl.indexes.map (fun i => i.name)).Nodup)
    (hwf : ∀ idx ∈ tbl.indexes, ∀ cn ∈ idx.columns, (get_column_index tbl.columns cn).isSome)
    (hconsist : ∀ idx ∈ tbl.indexes,
      idx.entries = entries_of tbl.columns idx.columns tbl.data_file)
    (hrun : insert_row tbl cols values = (.ok (), tbl2)) :
    ∀ idx ∈ tbl2.indexes, idx.entries = entries_of tbl2.columns idx.columns tbl2.data_file := by
  have main : ∀ v', insert_row_checked tbl v' = (.ok (), tbl2) →
      ∀ idx ∈ tbl2.indexes,
        idx.entries = entries_of tbl2.columns idx.columns tbl2.data_file := by
    intro v' hrun2
    by_cases hty : types_ok v' tbl.columns = true
    · rw [insert_row_checked_entries tbl v' hwf hnd2 hty] at hrun2
      have h2 : tbl2 = ⟨tbl.columns, tbl.row_count + 1,
          tbl.indexes.map (fun i => { i with entries := i.entries ++
            [(key_of_row tbl.columns i.columns v', tbl.data_file.length)] }),
          tbl.data_file ++ [v']⟩ := (Prod.mk.injEq _ _ _ _ ▸ hrun2).2.symm
      subst h2
      intro idx hmem
      dsimp only at hmem ⊢
      simp only [List.mem_map] at hmem
      rcases hmem with ⟨i, hi, rfl⟩
      dsimp only
      rw [hconsist i hi]
      unfold entries_of
      rw [entries_from_append]
      rw [Nat.zero_add]
    · rcases insert_row_checked_fst_error tbl v' (Bool.not_eq_true _ ▸ hty) with ⟨v, dt, herr⟩
      rw [herr] at hrun2
      have := (Prod.mk.injEq _ _ _ _ ▸ hrun2).1
      exact absurd this (by intro hcon; exact Except.noConfusion hcon)
  unfold insert_row at hrun
  cases cols with
  | some col_names =>
    dsimp only at hrun
    by_cases hlen : (col_names.length != values.length) = true
    · rw [if_pos hlen] at hrun
      have := (Prod.mk.injEq _ _ _ _ ▸ hrun).1
      exact absurd this (by intro hcon; exact Except.noConfusion hcon)
    · rw [if_neg hlen] at hrun
      exact main _ hrun
  | none =>
    dsimp only at hrun
    by_cases hlen : (tbl.columns.length != values.length) = true
    · rw [if_pos hlen] at hrun
      have := (Prod.mk.injEq _ _ _ _ ▸ hrun).1
      exact absurd this (by intro hcon; exact Except.noConfusion hcon)
    · rw [if_neg hlen] at hrun
      exact main _ hrun

theorem reorder_values_null_fill (schema : List Column) (col_names : List String)
    (values : List Value) (i : Nat) (col : Column) (hget : schema.get? i = some col)
    (habs : ¬ col.name ∈ col_names) :
    (reorder_values schema col_names values).get? i = some Value.Null := by
  unfold reorder_values
  rw [List.get?_map, hget]
  have hmap : col_map_lookup (col_names.zip values) col.name = none := by
    unfold col_map_lookup
    cases hf : (col_names.zip values).reverse.find? (fun p => p.1 == col.name) with
    | none => rfl
    | some pr =>
      have hp := List.find?_some (p := fun q : String × Value => q.1 == col.name) hf
      have hmem := List.mem_of_find?_eq_some hf
      rw [List.mem_reverse] at hmem
      have h1 : pr.1 ∈ col_names := (List.of_mem_zip hmem).1
      rw [show pr.1 = col.name from by simpa using hp] at h1
      exact absurd h1 habs
  simp [hmap]

/-- C3: for every `insert_row` call with an explicit column list, the values
are re-ordered into schema-declared column order with every schema column
absent from the explicit list filled with `Null`; and (with or without an
explicit list, on a table whose index descriptors reference existing schema
columns, as every state the storage operations produce satisfies) the call
succeeds exactly when the counts agree and each non-null value's variant
matches its column's declared `DataType`, failing with a type-mismatch error
naming the offending value and type otherwise, `Null` being accepted for
every column type. -/
theorem insert_row_reorder_and_type_check (tbl : Table) (cols? : Option (List String))
    (values : List Value)
    (hwf : ∀ idx ∈ tbl.indexes, ∀ cn ∈ idx.columns, (get_column_index tbl.columns cn).isSome) :
    ((insert_row tbl cols? values).1 = .ok () ↔
        count_ok tbl.columns cols? values = true ∧
          types_ok (final_values tbl.columns cols? values) tbl.columns = true) ∧
      ((insert_row tbl cols? values).1 = .ok () →
        (insert_row tbl cols? values).2.data_file =
          tbl.data_file ++ [final_values tbl.columns cols? values]) ∧
      (count_ok tbl.columns cols? values = true →
        types_ok (final_values tbl.columns cols? values) tbl.columns = false →
        ∃ v dt, (insert_row tbl cols? values).1 = .error (.TypeMismatch v dt)) ∧
      (∀ col_names i col, cols? = some col_names → tbl.columns.get? i = some col →
        ¬ col.name ∈ col_names →
        (final_values tbl.columns cols? values).get? i = some Value.Null) ∧
      (∀ dt, type_matches Value.Null dt = true) := by
  have hnull : ∀ col_names i col, cols? = some col_names → tbl.columns.get? i = some col →
      ¬ col.name ∈ col_names →
      (final_values tbl.columns cols? values).get? i = some Value.Null := by
    intro col_names i col hcols hget habs
    subst hcols
    exact reorder_values_null_fill tbl.columns col_names values i col hget habs
  have hnulltype : ∀ dt, type_matches Value.Null dt = true := fun dt => rfl
  by_cases hcount : count_ok tbl.columns cols? values = true
  · have hstep : insert_row tbl cols? values =
        insert_row_checked tbl (final_values tbl.columns cols? values) := by
      cases cols? with
      | some col_names =>
        simp only [count_ok, beq_iff_eq] at hcount
        simp only [insert_row, final_values, bne, hcount, beq_self_eq_true, Bool.not_true,
          Bool.false_eq_true, if_false]
      | none =>
        simp only [count_ok, beq_iff_eq] at hcount
        simp only [insert_row, final_values, bne, hcount, beq_self_eq_true, Bool.not_true,
          Bool.false_eq_true, if_false]
    by_cases hty : types_ok (final_values tbl.columns cols? values) tbl.columns = true
    · rcases insert_row_checked_ok tbl (final_values tbl.columns cols? values) hwf hty with
        ⟨tbl2, hok, hd, _, _⟩
      refine ⟨?_, ?_, ?_, hnull, hnulltype⟩
      · rw [hstep, hok]
        simp [hcount, hty]
      · intro _
        rw [hstep, hok]
        exact hd
      · intro _ hty2
        rw [hty2] at hty
        cases hty
    · have hty2 : types_ok (final_values tbl.columns cols? values) tbl.columns = false := by
        revert hty; cases types_ok (final_values tbl.columns cols? values) tbl.columns <;> simp
      rcases insert_row_checked_fst_error tbl (final_values tbl.columns cols? values) hty2 with
        ⟨v, dt, herr⟩
      refine ⟨?_, ?_, ?_, hnull, hnulltype⟩
      · rw [hstep, herr]
        simp [hty2]
      · intro hok
        rw [hstep, herr] at hok
        cases hok
      · intro _ _
        exact ⟨v, dt, by rw [hstep, herr]⟩
  · have hcf : count_ok tbl.columns cols? values = false := by
      revert hcount; cases count_ok tbl.columns cols? values <;> simp
    have hstep : (insert_row tbl cols? values) =
        (match cols? with
         | some _ => (.error StorageError.ColumnCountMismatch, tbl)
         | none => (.error StorageError.ValueCountMismatch, tbl)) := by
      cases cols? with
      | some col_names =>
        simp only [count_ok, beq_eq_false_iff_ne, ne_eq] at hcf
        have hne : (col_names.length != values.length) = true := by
          simp only [bne_iff_ne, ne_eq]
          exact hcf
        simp [insert_row, hne]
      | none =>
        simp only [count_ok, beq_eq_false_iff_ne, ne_eq] at hcf
        have hne : (tbl.columns.length != values.length) = true := by
          simp only [bne_iff_ne, ne_eq]
          exact hcf
        simp [insert_row, hne]
    refine ⟨?_, ?_, ?_, hnull, hnulltype⟩
    · rw [hstep]
      cases cols? <;> simp [hcf]
    · intro hok
      rw [hstep] at hok
      cases cols? <;> cases hok
    · intro hc _
      rw [hc] at hcf
      cases hcf

def c3_table : Table :=
  { columns := [⟨"a", .Integer⟩, ⟨"b", .Text⟩], row_count := 0, indexes := [], data_file := [] }

theorem insert_row_reorder_and_type_check_witness :
    (insert_row c3_table (some ["b"]) [Value.Text "x"]).1 = .ok () ∧
      (insert_row c3_table (some ["b"]) [Value.Text "x"]).2.data_file =
        [[Value.Null, Value.Text "x"]] := by
  have h := insert_row_reorder_and_type_check c3_table
    (some ["b"]) [Value.Text "x"] (by intro idx hidx; cases hidx)
  refine ⟨h.1.mpr (by decide), ?_⟩
  have h2 := h.2.1 (h.1.mpr (by decide))
  rw [h2]
  decide

/-- C10: whenever `insert_row` fails because of a column-count mismatch, a
value-count mismatch or a value/type mismatch, it returns before performing
any write: the data file, every index file and the catalog entry (including
`row_count`) are exactly as they were before the call. -/
theorem insert_row_error_state_unchanged (tbl : Table) (cols? : Option (List String))
    (values : List Value) (e : StorageError) (tbl2 : Table)
    (h : insert_row tbl cols? values = (.error e, tbl2))
    (he : e = .ColumnCountMismatch ∨ e = .ValueCountMismatch ∨
      ∃ v dt, e = .TypeMismatch v dt) :
    tbl2 = tbl := by
  have hchk : ∀ vals, insert_row_checked tbl vals = (.error e, tbl2) → tbl2 = tbl := by
    intro vals hc
    unfold insert_row_checked at hc
    cases htc : type_check vals tbl.columns with
    | error e2 => rw [htc] at hc; cases hc; rfl
    | ok u =>
      cases u
      rw [htc] at hc
      dsimp only at hc
      have hshape := insert_indexes_error_shape vals tbl.data_file.length _ _ tbl2 e hc
      rcases he with h1 | h1 | ⟨v, dt, h1⟩ <;> subst h1 <;>
        rcases hshape with h2 | h2 <;> simp at h2
  cases cols? with
  | some col_names =>
    simp only [insert_row] at h
    by_cases hcnt : (col_names.length != values.length) = true
    · rw [if_pos hcnt] at h
      cases h
      rfl
    · rw [if_neg hcnt] at h
      exact hchk _ h
  | none =>
    simp only [insert_row] at h
    by_cases hcnt : (tbl.columns.length != values.length) = true
    · rw [if_pos hcnt] at h
      cases h
      rfl
    · rw [if_neg hcnt] at h
      exact hchk _ h

def c10_table : Table :=
  { columns := [⟨"a", DataType.Integer⟩], row_count := 0, indexes := [], data_file := [] }

theorem insert_row_error_state_unchanged_witness :
    (insert_row c10_table none [Value.Text "x"]).2 = c10_table :=
  insert_row_error_state_unchanged c10_table
    none [Value.Text "x"] (.TypeMismatch (Value.Text "x") DataType.Integer) _
    (by decide) (Or.inr (Or.inr ⟨Value.Text "x", DataType.Integer, rfl⟩))

/-! ## Claim C6: ORDER BY -/

theorem sort_by_insert_perm {α : Type} (le : α → α → Bool) (x : α) :
    ∀ l : List α, (sort_by_insert le x l).Perm (x :: l) := by
  intro l
  induction l with
  | nil => exact List.Perm.refl _
  | cons y ys ih =>
    unfold sort_by_insert
    split
    · exact List.Perm.refl _
    · exact (List.Perm.cons y ih).trans (List.Perm.swap x y ys)

theorem sort_by_perm {α : Type} (le : α → α → Bool) :
    ∀ l : List α, (sort_by le l).Perm l := by
  intro l
  induction l with
  | nil => exact List.Perm.refl _
  | cons x xs ih =>
    show (sort_by_insert le x (sort_by le xs)).Perm (x :: xs)
    exact (sort_by_insert_perm le x (sort_by le xs)).trans (List.Perm.cons x ih)

theorem mem_sort_by_insert {α : Type} (le : α → α → Bool) (x a : α) (l : List α) :
    a ∈ sort_by_insert le x l ↔ a = x ∨ a ∈ l := by
  rw [(sort_by_insert_perm le x l).mem_iff]
  simp

theorem sort_by_insert_pairwise {α : Type} (le : α → α → Bool) (x : α) :
    ∀ l : List α,
      (∀ b ∈ l, le x b = true ∨ le b x = true) →
      (∀ b ∈ l, ∀ c ∈ l, le x b = true → le b c = true → le x c = true) →
      l.Pairwise (fun a b => le a b = true) →
      (sort_by_insert le x l).Pairwise (fun a b => le a b = true) := by
  intro l
  induction l with
  | nil => intro _ _ _; simp [sort_by_insert]
  | cons y ys ih =>
    intro htot htrans hl
    rw [List.pairwise_cons] at hl
    obtain ⟨hy, hys⟩ := hl
    unfold sort_by_insert
    by_cases hxy : le x y = true
    · rw [if_pos hxy, List.pairwise_cons]
      refine ⟨?_, List.pairwise_cons.mpr ⟨hy, hys⟩⟩
      intro b hb
      rcases List.mem_cons.mp hb with rfl | hb2
      · exact hxy
      · exact htrans y (by simp) b (by simp [hb2]) hxy (hy b hb2)
    · rw [if_neg hxy, List.pairwise_cons]
      constructor
      · intro b hb
        rcases (mem_sort_by_insert le x b ys).mp hb with rfl | hb2
        · rcases htot y (by simp) with h | h
          · exact absurd h hxy
          · exact h
        · exact hy b hb2
      · exact ih (fun b hb => htot b (by simp [hb]))
          (fun b hb c hc => htrans b (by simp [hb]) c (by simp [hc])) hys

theorem sort_by_pairwise {α : Type} (le : α → α → Bool) :
    ∀ l : List α,
      (∀ a ∈ l, ∀ b ∈ l, le a b = true ∨ le b a = true) →
      (∀ a ∈ l, ∀ b ∈ l, ∀ c ∈ l, le a b = true → le b c = true → le a c = true) →
      (sort_by le l).Pairwise (fun a b => le a b = true) := by
  intro l
  induction l with
  | nil => intro _ _; simp [sort_by]
  | cons x xs ih =>
    intro htot htrans
    show (sort_by_insert le x (sort_by le xs)).Pairwise _
    have hsub : ∀ b ∈ sort_by le xs, b ∈ xs := fun b hb => (sort_by_perm le xs).mem_iff.mp hb
    refine sort_by_insert_pairwise le x (sort_by le xs) ?_ ?_ ?_
    · intro b hb
      exact htot x (by simp) b (by simp [hsub b hb])
    · intro b hb c hc
      exact htrans x (by simp) b (by simp [hsub b hb]) c (by simp [hsub c hc])
    · exact ih (fun a ha b hb => htot a (by simp [ha]) b (by simp [hb]))
        (fun a ha b hb c hc => htrans a (by simp [ha]) b (by simp [hb]) c (by simp [hc]))

theorem pairwise_perm_eq {α : Type} (R : α → α → Prop)
    (hasym : ∀ a b, R a b → R b a → False) :
    ∀ (l₁ l₂ : List α), l₁.Perm l₂ → l₁.Pairwise R → l₂.Pairwise R → l₁ = l₂ := by
  intro l₁
  induction l₁ with
  | nil =>
    intro l₂ hp _ _
    exact hp.nil_eq
  | cons a t ih =>
    intro l₂ hp h1 h2
    cases l₂ with
    | nil => cases hp.symm.nil_eq
    | cons b t₂ =>
      by_cases hab : a = b
      · subst hab
        rw [ih t₂ hp.cons_inv (List.pairwise_cons.mp h1).2 (List.pairwise_cons.mp h2).2]
      · have ha2 : a ∈ b :: t₂ := hp.subset (by simp)
        have ha2' : a ∈ t₂ := by
          rcases List.mem_cons.mp ha2 with h | h
          · exact absurd h hab
          · exact h
        have hb1 : b ∈ a :: t := hp.symm.subset (by simp)
        have hb1' : b ∈ t := by
          rcases List.mem_cons.mp hb1 with h | h
          · exact absurd h.symm hab
          · exact h
        have hRab : R a b := (List.pairwise_cons.mp h1).1 b hb1'
        have hRba : R b a := (List.pairwise_cons.mp h2).1 a ha2'
        exact (hasym a b hRab hRba).elim

theorem cmpInt_eq_gt_iff (a b : Int) : cmpInt a b = .gt ↔ b < a := by
  unfold cmpInt
  split_ifs <;> simp <;> omega

theorem cmpInt_eq_lt_iff (a b : Int) : cmpInt a b = .lt ↔ a < b := by
  unfold cmpInt
  split_ifs <;> simp <;> omega

theorem cmpInt_eq_eq_iff (a b : Int) : cmpInt a b = .eq ↔ a = b := by
  unfold cmpInt
  split_ifs <;> simp <;> omega

/-- Values that are `Null` or `Integer` — the contents of an Integer column. -/
def is_int_or_null : Value → Bool
  | .Null => true
  | .Integer _ => true
  | _ => false

theorem int_null_cases (u : Value) (hu : is_int_or_null u = true) :
    u = .Null ∨ ∃ n, u = .Integer n := by
  cases u <;> simp [is_int_or_null] at hu ⊢

theorem cmp_null_null : Value.cmp .Null .Null = .eq := rfl

theorem cmp_null_int (n : Int) : Value.cmp .Null (.Integer n) = .lt := rfl

theorem cmp_int_null (n : Int) : Value.cmp (.Integer n) .Null = .gt := rfl

theorem cmp_int_int (m n : Int) : Value.cmp (.Integer m) (.Integer n) = cmpInt m n := rfl

theorem asc_total_domain (u v : Value) (hu : is_int_or_null u = true)
    (hv : is_int_or_null v = true) :
    ¬ Value.cmp u v = .gt ∨ ¬ Value.cmp v u = .gt := by
  rcases int_null_cases u hu with rfl | ⟨m, rfl⟩ <;>
    rcases int_null_cases v hv with rfl | ⟨n, rfl⟩
  · exact Or.inl (fun h => nomatch h)
  · exact Or.inl (fun h => nomatch h)
  · exact Or.inr (fun h => nomatch h)
  · simp only [cmp_int_int, cmpInt_eq_gt_iff, not_lt]
    omega

theorem asc_trans_domain (u v w : Value) (hu : is_int_or_null u = true)
    (hv : is_int_or_null v = true) (hw : is_int_or_null w = true)
    (h1 : ¬ Value.cmp u v = .gt) (h2 : ¬ Value.cmp v w = .gt) :
    ¬ Value.cmp u w = .gt := by
  rcases int_null_cases u hu with rfl | ⟨m, rfl⟩ <;>
    rcases int_null_cases v hv with rfl | ⟨n, rfl⟩ <;>
    rcases int_null_cases w hw with rfl | ⟨p, rfl⟩
  · exact fun h => nomatch h
  · exact fun h => nomatch h
  · exact (h2 rfl).elim
  · exact fun h => nomatch h
  · exact (h1 rfl).elim
  · exact (h1 rfl).elim
  · exact (h2 rfl).elim
  · simp only [cmp_int_int, cmpInt_eq_gt_iff, not_lt] at h1 h2 ⊢
    omega

theorem desc_total_domain (u v : Value) (hu : is_int_or_null u = true)
    (hv : is_int_or_null v = true) :
    ¬ Value.cmp u v = .lt ∨ ¬ Value.cmp v u = .lt := by
  rcases int_null_cases u hu with rfl | ⟨m, rfl⟩ <;>
    rcases int_null_cases v hv with rfl | ⟨n, rfl⟩
  · exact Or.inl (fun h => nomatch h)
  · exact Or.inr (fun h => nomatch h)
  · exact Or.inl (fun h => nomatch h)
  · simp only [cmp_int_int, cmpInt_eq_lt_iff, not_lt]
    omega

theorem desc_trans_domain (u v w : Value) (hu : is_int_or_null u = true)
    (hv : is_int_or_null v = true) (hw : is_int_or_null w = true)
    (h1 : ¬ Value.cmp u v = .lt) (h2 : ¬ Value.cmp v w = .lt) :
    ¬ Value.cmp u w = .lt := by
  rcases int_null_cases u hu with rfl | ⟨m, rfl⟩ <;>
    rcases int_null_cases v hv with rfl | ⟨n, rfl⟩ <;>
    rcases int_null_cases w hw with rfl | ⟨p, rfl⟩
  · exact fun h => nomatch h
  · exact (h2 rfl).elim
  · exact fun h => nomatch h
  · exact (h1 rfl).elim
  · exact fun h => nomatch h
  · exact (h2 rfl).elim
  · exact fun h => nomatch h
  · simp only [cmp_int_int, cmpInt_eq_lt_iff, not_lt] at h1 h2 ⊢
    omega

theorem asc_strict_domain (u v : Value) (hu : is_int_or_null u = true)
    (hv : is_int_or_null v = true) (hne : ¬ u = v)
    (h : ¬ Value.cmp u v = .gt) : Value.cmp u v = .lt := by
  rcases int_null_cases u hu with rfl | ⟨m, rfl⟩ <;>
    rcases int_null_cases v hv with rfl | ⟨n, rfl⟩
  · exact (hne rfl).elim
  · rfl
  · exact (h rfl).elim
  · simp only [Value.Integer.injEq] at hne
    simp only [cmp_int_int, cmpInt_eq_gt_iff, not_lt] at h
    simp only [cmp_int_int, cmpInt_eq_lt_iff]
    omega

theorem desc_strict_domain (u v : Value) (hu : is_int_or_null u = true)
    (hv : is_int_or_null v = true) (hne : ¬ u = v)
    (h : ¬ Value.cmp u v = .lt) : Value.cmp u v = .gt := by
  rcases int_null_cases u hu with rfl | ⟨m, rfl⟩ <;>
    rcases int_null_cases v hv with rfl | ⟨n, rfl⟩
  · exact (hne rfl).elim
  · exact (h rfl).elim
  · rfl
  · simp only [Value.Integer.injEq] at hne
    simp only [cmp_int_int, cmpInt_eq_lt_iff, not_lt] at h
    simp only [cmp_int_int, cmpInt_eq_gt_iff]
    omega

theorem lt_flip_domain (u v : Value) (hu : is_int_or_null u = true)
    (hv : is_int_or_null v = true) (h : Value.cmp v u = .lt) : Value.cmp u v = .gt := by
  rcases int_null_cases u hu with rfl | ⟨m, rfl⟩ <;>
    rcases int_null_cases v hv with rfl | ⟨n, rfl⟩
  · exact nomatch h
  · exact nomatch h
  · rfl
  · simp only [cmp_int_int, cmpInt_eq_lt_iff] at h
    simp only [cmp_int_int, cmpInt_eq_gt_iff]
    omega

theorem cmpInt_swap (a b : Int) : (cmpInt a b).swap = cmpInt b a := by
  unfold cmpInt
  split_ifs <;> first | rfl | omega

theorem cmpChar_swap (a b : Char) : (cmpChar a b).swap = cmpChar b a :=
  cmpInt_swap _ _

theorem cmpBool_swap (a b : Bool) : (cmpBool a b).swap = cmpBool b a := by
  cases a <;> cases b <;> rfl

theorem cmpCharList_swap : ∀ (a b : List Char), (cmpCharList a b).swap = cmpCharList b a
  | [], [] => rfl
  | [], _ :: _ => rfl
  | _ :: _, [] => rfl
  | a :: as, b :: bs => by
    unfold cmpCharList
    cases hc : cmpChar a b with
    | eq =>
      have h2 : cmpChar b a = .eq := by rw [← cmpChar_swap a b, hc]; rfl
      rw [h2]
      exact cmpCharList_swap as bs
    | lt =>
      have h2 : cmpChar b a = .gt := by rw [← cmpChar_swap a b, hc]; rfl
      rw [h2]
      rfl
    | gt =>
      have h2 : cmpChar b a = .lt := by rw [← cmpChar_swap a b, hc]; rfl
      rw [h2]
      rfl

theorem cmpString_swap (a b : String) : (cmpString a b).swap = cmpString b a :=
  cmpCharList_swap a.data b.data

theorem partial_cmp_swap : ∀ (a b : Value) (o : Ordering), a.partial_cmp b = some o →
    b.partial_cmp a = some o.swap := by
  intro a b o h
  cases a <;> cases b <;>
    simp only [Value.partial_cmp] at h ⊢ <;>
    first
      | exact Option.noConfusion h
      | (injection h with h2
         rw [← h2]
         first
           | rfl
           | exact congrArg some (cmpInt_swap _ _).symm
           | exact congrArg some (cmpString_swap _ _).symm
           | exact congrArg some (cmpBool_swap _ _).symm)

theorem cmp_eq_gt_partial (a b : Value) (h : Value.cmp a b = .gt) :
    a.partial_cmp b = some .gt := by
  unfold Value.cmp at h
  cases hp : a.partial_cmp b with
  | none => rw [hp] at h; cases h
  | some o =>
    rw [hp] at h
    simp only [Option.getD_some] at h
    rw [h]

theorem cmp_gt_asymm (a b : Value) (h1 : Value.cmp a b = .gt) (h2 : Value.cmp b a = .gt) :
    False := by
  have hp1 := cmp_eq_gt_partial a b h1
  have hp2 := partial_cmp_swap a b .gt hp1
  unfold Value.cmp at h2
  rw [hp2] at h2
  exact absurd h2 (by decide)

theorem ordering_swap_eq_gt_iff (o : Ordering) : o.swap = .gt ↔ o = .lt := by
  cases o <;> decide

theorem ordering_bne_iff (a b : Ordering) : ((a != b) = true) ↔ ¬ a = b := by
  cases a <;> cases b <;> decide

theorem leD_iff (i : Nat) (a b : Row) :
    ((order_comparator i .Descending a b != Ordering.gt) = true) ↔
      ¬ Value.cmp (a.getD i Value.Null) (b.getD i Value.Null) = .lt := by
  rw [ordering_bne_iff]
  unfold order_comparator
  dsimp only
  exact not_congr (ordering_swap_eq_gt_iff _)

theorem leA_iff (i : Nat) (a b : Row) :
    ((order_comparator i .Ascending a b != Ordering.gt) = true) ↔
      ¬ Value.cmp (a.getD i Value.Null) (b.getD i Value.Null) = .gt := by
  rw [ordering_bne_iff]
  unfold order_comparator
  dsimp only
  exact Iff.rfl

/-- With pairwise-distinct `Integer`/`Null` sort keys, the descending sort is
exactly the reverse of the ascending sort: both are strictly sorted
permutations of the same rows, and a strictly sorted permutation is unique. -/
theorem sort_desc_eq_reverse_asc (i : Nat) (data : List Row)
    (hkeys : ∀ r ∈ data, is_int_or_null (r.getD i Value.Null) = true)
    (hdist : data.Pairwise (fun a b => ¬ a.getD i Value.Null = b.getD i Value.Null)) :
    sort_result data i .Descending = (sort_result data i .Ascending).reverse := by
  have hpermD := sort_by_perm (fun a b => order_comparator i .Descending a b != Ordering.gt) data
  have hpermA := sort_by_perm (fun a b => order_comparator i .Ascending a b != Ordering.gt) data
  have hmemD : ∀ r ∈ sort_result data i .Descending, r ∈ data := fun r hr => hpermD.mem_iff.mp hr
  have hmemA : ∀ r ∈ sort_result data i .Ascending, r ∈ data := fun r hr => hpermA.mem_iff.mp hr
  have hsymm : Symmetric (fun a b : Row => ¬ a.getD i Value.Null = b.getD i Value.Null) :=
    fun a b h he => h he.symm
  have hD_le := sort_by_pairwise (fun a b => order_comparator i .Descending a b != Ordering.gt)
    data
    (fun a ha b hb => by
      rw [leD_iff, leD_iff]
      exact desc_total_domain _ _ (hkeys a ha) (hkeys b hb))
    (fun a ha b hb c hc h1 h2 => by
      rw [leD_iff] at h1 h2 ⊢
      exact desc_trans_domain _ _ _ (hkeys a ha) (hkeys b hb) (hkeys c hc) h1 h2)
  have hA_le := sort_by_pairwise (fun a b => order_comparator i .Ascending a b != Ordering.gt)
    data
    (fun a ha b hb => by
      rw [leA_iff, leA_iff]
      exact asc_total_domain _ _ (hkeys a ha) (hkeys b hb))
    (fun a ha b hb c hc h1 h2 => by
      rw [leA_iff] at h1 h2 ⊢
      exact asc_trans_domain _ _ _ (hkeys a ha) (hkeys b hb) (hkeys c hc) h1 h2)
  have hdistD : (sort_result data i .Descending).Pairwise
      (fun a b => ¬ a.getD i Value.Null = b.getD i Value.Null) :=
    (List.Perm.pairwise_iff
      (R := fun a b : Row => ¬ a.getD i Value.Null = b.getD i Value.Null)
      (fun h he => h he.symm) hpermD).mpr hdist
  have hdistA : (sort_result data i .Ascending).Pairwise
      (fun a b => ¬ a.getD i Value.Null = b.getD i Value.Null) :=
    (List.Perm.pairwise_iff
      (R := fun a b : Row => ¬ a.getD i Value.Null = b.getD i Value.Null)
      (fun h he => h he.symm) hpermA).mpr hdist
  have hDstrict : (sort_result data i .Descending).Pairwise
      (fun a b => Value.cmp (a.getD i Value.Null) (b.getD i Value.Null) = .gt) := by
    refine List.Pairwise.imp_of_mem ?_ (hD_le.and hdistD)
    intro a b ha hb hab
    exact desc_strict_domain _ _ (hkeys a (hmemD a ha)) (hkeys b (hmemD b hb)) hab.2
      ((leD_iff i a b).mp hab.1)
  have hAstrict : (sort_result data i .Ascending).Pairwise
      (fun a b => Value.cmp (a.getD i Value.Null) (b.getD i Value.Null) = .lt) := by
    refine List.Pairwise.imp_of_mem ?_ (hA_le.and hdistA)
    intro a b ha hb hab
    exact asc_strict_domain _ _ (hkeys a (hmemA a ha)) (hkeys b (hmemA b hb)) hab.2
      ((leA_iff i a b).mp hab.1)
  have hRevStrict : (sort_result data i .Ascending).reverse.Pairwise
      (fun a b => Value.cmp (a.getD i Value.Null) (b.getD i Value.Null) = .gt) := by
    rw [List.pairwise_reverse]
    refine List.Pairwise.imp_of_mem ?_ hAstrict
    intro a b ha hb h
    exact lt_flip_domain _ _ (hkeys b (hmemA b hb)) (hkeys a (hmemA a ha)) h
  have hperm : (sort_result data i .Descending).Perm
      (sort_result data i .Ascending).reverse :=
    hpermD.trans (hpermA.symm.trans (List.reverse_perm _).symm)
  exact pairwise_perm_eq
    (fun a b => Value.cmp (a.getD i Value.Null) (b.getD i Value.Null) = .gt)
    (fun a b h1 h2 => cmp_gt_asymm _ _ h1 h2)
    _ _ hperm hDstrict hRevStrict

/-- C6 counterexample: with duplicate sort keys the stable sort preserves
input order in both directions, so Descending is NOT the exact reverse of
Ascending: on rows `[[1,10],[1,20]]` ordered by the first column, both
directions return `[[1,10],[1,20]]`, whose reverse is `[[1,20],[1,10]]`. -/
theorem order_by_descending_counterexample :
    get_rows ⟨[⟨"a", .Integer⟩, ⟨"b", .Integer⟩], 2, [],
        [[.Integer 1, .Integer 10], [.Integer 1, .Integer 20]]⟩
      ["*"] none (some ⟨"a", .Descending⟩) none =
        .ok [[.Integer 1, .Integer 10], [.Integer 1, .Integer 20]] ∧
      get_rows ⟨[⟨"a", .Integer⟩, ⟨"b", .Integer⟩], 2, [],
          [[.Integer 1, .Integer 10], [.Integer 1, .Integer 20]]⟩
        ["*"] none (some ⟨"a", .Ascending⟩) none =
          .ok [[.Integer 1, .Integer 10], [.Integer 1, .Integer 20]] ∧
      ([[Value.Integer 1, Value.Integer 10], [Value.Integer 1, Value.Integer 20]] : List Row) ≠
        List.reverse [[Value.Integer 1, Value.Integer 10], [Value.Integer 1, Value.Integer 20]] :=
  ⟨by decide, by decide, by decide⟩

/-- C6 amended: for every `get_rows` call with ORDER BY on a column holding
only `Integer`/`Null` values, Ascending sorts by the `Value` ordering with
`Null` before every non-null value, and — whenever the sort-column values
are pairwise distinct — Descending yields exactly the reverse of the
Ascending sequence (with duplicate keys both directions preserve input
order among equal keys, stable sort, so the reverse law fails there). -/
theorem order_by_desc_reverse_of_distinct (tbl : Table) (obcol : String) (i : Nat)
    (hidx : get_column_index tbl.columns obcol = some i)
    (hkeys : ∀ r ∈ tbl.data_file, is_int_or_null (r.getD i Value.Null) = true)
    (hdist : tbl.data_file.Pairwise
      (fun a b => ¬ a.getD i Value.Null = b.getD i Value.Null)) :
    get_rows tbl ["*"] none (some ⟨obcol, .Descending⟩) none =
      Except.map List.reverse (get_rows tbl ["*"] none (some ⟨obcol, .Ascending⟩) none) := by
  have hdata : full_scan tbl none none = tbl.data_file := by
    rw [full_scan_eq]
    simp [limit_take, row_matches]
  unfold get_rows sorted_rows scanned_rows use_index
  dsimp only
  rw [hdata, hidx]
  dsimp only
  rw [if_pos (by rfl)]
  rw [sort_desc_eq_reverse_asc i tbl.data_file hkeys hdist]
  rfl

def c6_example : Table :=
  { columns := [⟨"a", .Integer⟩], row_count := 4, indexes := [],
    data_file := [[.Integer 3], [.Integer 1], [.Integer 2], [.Null]] }

theorem order_by_desc_reverse_of_distinct_witness :
    get_rows c6_example ["*"] none (some ⟨"a", .Ascending⟩) none =
        .ok [[.Null], [.Integer 1], [.Integer 2], [.Integer 3]] ∧
      get_rows c6_example ["*"] none (some ⟨"a", .Descending⟩) none =
        .ok [[.Integer 3], [.Integer 2], [.Integer 1], [.Null]] ∧
      get_rows c6_example ["*"] none (some ⟨"a", .Descending⟩) none =
        Except.map List.reverse (get_rows c6_example ["*"] none (some ⟨"a", .Ascending⟩) none) :=
  ⟨by decide, by decide,
   order_by_desc_reverse_of_distinct c6_example "a" 0 (by decide) (by decide) (by decide)⟩

/-! ## Claim C5: AND/OR chains parse as a left fold -/

/-- The six binary comparison operators a simple WHERE condition can use. -/
inductive CompOp
  | CEq
  | CNe
  | CGt
  | CLt
  | CGe
  | CLe
deriving DecidableEq

/-- The operator token text of each comparison operator. -/
def comp_op_text : CompOp → String
  | .CEq => "="
  | .CNe => "<>"
  | .CGt => ">"
  | .CLt => "<"
  | .CGe => ">="
  | .CLe => "<="

/-- The condition `parse_condition` builds for each comparison operator. -/
def mk_comp (op : CompOp) (column : String) (v : Value) : Condition :=
  match op with
  | .CEq => .Equal column v
  | .CNe => .NotEqual column v
  | .CGt => .GreaterThan column v
  | .CLt => .LessThan column v
  | .CGe => .GreaterEqual column v
  | .CLe => .LessEqual column v

/-- A simple comparison condition `column <op> <literal>` as it appears in a
WHERE chain: column identifier, comparison operator, and the literal token
(arbitrary — `parse_condition` consumes it blindly). -/
structure Leaf where
  col : String
  op : CompOp
  lit : Token

/-- The three tokens of a simple comparison condition. -/
def leaf_tokens (l : Leaf) : List Token :=
  [⟨.Identifier, l.col, 0⟩, ⟨.Operator, comp_op_text l.op, 0⟩, l.lit]

/-- The condition a leaf parses to. -/
def leaf_cond (l : Leaf) : Condition := mk_comp l.op l.col (token_to_value l.lit)

/-- The combinator token between chain elements: `AND` when `true`, `OR`
when `false`. -/
def op_token (b : Bool) : Token := ⟨.Keyword, if b then "AND" else "OR", 0⟩

/-- The token stream of the chain tail: combinator token then leaf, repeated. -/
def chain_steps_tokens : List (Bool × Leaf) → List Token
  | [] => []
  | (b, l) :: rest => op_token b :: (leaf_tokens l ++ chain_steps_tokens rest)

/-- The full token stream of a WHERE chain, terminated by the EOF token
`tokenize` always appends. -/
def chain_tokens (first : Leaf) (steps : List (Bool × Leaf)) : List Token :=
  leaf_tokens first ++ (chain_steps_tokens steps ++ [⟨.EOF, "", 0⟩])

/-- The left fold the claim asserts: each combinator applies to the whole
condition accumulated so far (no precedence distinction). -/
def chain_fold (first : Leaf) (steps : List (Bool × Leaf)) : Condition :=
  steps.foldl (fun acc p =>
    if p.1 then Condition.And acc (leaf_cond p.2) else Condition.Or acc (leaf_cond p.2))
    (leaf_cond first)

theorem chain_steps_tokens_length (steps : List (Bool × Leaf)) :
    (chain_steps_tokens steps).length = 4 * steps.length := by
  induction steps with
  | nil => rfl
  | cons p rest ih =>
    obtain ⟨b, l⟩ := p
    simp [chain_steps_tokens, leaf_tokens, ih]
    omega

theorem comp_op_not_is (op : CompOp) : (strUpper (comp_op_text op) == "IS") = false := by
  cases op <;> decide

theorem parse_condition_leaf (pre post : List Token) (l : Leaf) :
    parse_condition (pre ++ (leaf_tokens l ++ post)) pre.length =
      .ok (leaf_cond l, pre.length + 3) := by
  have h0 : (pre ++ (leaf_tokens l ++ post)).get? pre.length =
      some ⟨.Identifier, l.col, 0⟩ := by
    rw [List.get?_append_right (le_refl _), Nat.sub_self]
    rfl
  have h1 : (pre ++ (leaf_tokens l ++ post)).get? (pre.length + 1) =
      some ⟨.Operator, comp_op_text l.op, 0⟩ := by
    rw [List.get?_append_right (by omega)]
    have : pre.length + 1 - pre.length = 1 := by omega
    rw [this]
    rfl
  have h2 : (pre ++ (leaf_tokens l ++ post)).get? (pre.length + 2) = some l.lit := by
    rw [List.get?_append_right (by omega)]
    have : pre.length + 2 - pre.length = 2 := by omega
    rw [this]
    rfl
  unfold parse_condition
  rw [h0]
  dsimp only
  rw [if_neg (by decide)]
  rw [h1]
  dsimp only
  rw [if_neg (by simp [comp_op_not_is])]
  rw [h2]
  dsimp only
  cases hop : l.op <;>
    simp [comp_op_text, leaf_cond, mk_comp, hop]

theorem parse_conditions_loop_chain (steps : List (Bool × Leaf)) :
    ∀ (pre : List Token) (fuel : Nat) (leftc : Condition), steps.length < fuel →
      parse_conditions_loop (pre ++ (chain_steps_tokens steps ++ [⟨.EOF, "", 0⟩])) fuel
          pre.length leftc =
        .ok (steps.foldl (fun acc p =>
          if p.1 then Condition.And acc (leaf_cond p.2) else Condition.Or acc (leaf_cond p.2))
          leftc, pre.length + 4 * steps.length) := by
  induction steps with
  | nil =>
    intro pre fuel leftc hfuel
    cases fuel with
    | zero => omega
    | succ f =>
      simp only [chain_steps_tokens, List.nil_append, parse_conditions_loop]
      rw [if_neg (by simp)]
      have hg : (pre ++ [(⟨.EOF, "", 0⟩ : Token)]).get? pre.length =
          some ⟨.EOF, "", 0⟩ := by
        rw [List.get?_append_right (le_refl _), Nat.sub_self]
        rfl
      rw [hg]
      dsimp only
      rw [if_neg (by decide)]
      simp
  | cons p rest ih =>
    obtain ⟨b, l⟩ := p
    intro pre fuel leftc hfuel
    cases fuel with
    | zero => exact absurd hfuel (by omega)
    | succ f =>
      have htoks : pre ++ (chain_steps_tokens ((b, l) :: rest) ++ [(⟨.EOF, "", 0⟩ : Token)]) =
          ((pre ++ [op_token b]) ++ leaf_tokens l) ++
            (chain_steps_tokens rest ++ [(⟨.EOF, "", 0⟩ : Token)]) := by
        simp [chain_steps_tokens, List.append_assoc]
      rw [htoks]
      simp only [parse_conditions_loop]
      rw [if_neg (by
        simp only [List.length_append, chain_steps_tokens_length, leaf_tokens,
          List.length_cons, List.length_nil, not_le]
        omega)]
      have hg : ((((pre ++ [op_token b]) ++ leaf_tokens l) ++
          (chain_steps_tokens rest ++ [(⟨.EOF, "", 0⟩ : Token)]))).get? pre.length =
          some (op_token b) := by
        rw [List.get?_append (by simp [leaf_tokens] <;> omega)]
        rw [List.get?_append (by simp <;> omega)]
        rw [List.get?_append_right (le_refl _), Nat.sub_self]
        rfl
      rw [hg]
      dsimp only
      rw [if_pos (by cases b <;> decide)]
      have hpc : parse_condition ((((pre ++ [op_token b]) ++ leaf_tokens l) ++
          (chain_steps_tokens rest ++ [(⟨.EOF, "", 0⟩ : Token)]))) (pre.length + 1) =
          .ok (leaf_cond l, pre.length + 4) := by
        have := parse_condition_leaf (pre ++ [op_token b])
          (chain_steps_tokens rest ++ [(⟨.EOF, "", 0⟩ : Token)]) l
        simp only [List.length_append, List.length_cons, List.length_nil,
          List.append_assoc] at this ⊢
        convert this using 2 <;> omega
      rw [hpc]
      dsimp only
      have hpre2 : pre.length + 4 = ((pre ++ [op_token b]) ++ leaf_tokens l).length := by
        simp [leaf_tokens]
      rw [hpre2, ih ((pre ++ [op_token b]) ++ leaf_tokens l) f _ (by
        simp only [List.length_cons] at hfuel
        omega)]
      simp only [List.foldl_cons, List.length_cons, List.length_append, leaf_tokens,
        List.length_nil]
      congr 2
      · cases b
        · rw [show (strUpper (op_token false).value == "AND") = false from by decide]
        · rw [show (strUpper (op_token true).value == "AND") = true from by decide]
      · omega

/-- C5: for every WHERE chain of simple comparison conditions joined by AND
and OR, `parse_conditions` folds the chain pairwise left-to-right with no
precedence distinction between AND and OR: the resulting condition is the
left fold of the combinators over the leaves (`a OR b AND c` parses to
`And (Or a b) c`, never `Or a (And b c)`). -/
theorem parse_conditions_left_fold (first : Leaf) (steps : List (Bool × Leaf)) :
    parse_conditions (chain_tokens first steps) 0 =
      .ok ([chain_fold first steps], 3 + 4 * steps.length) := by
  unfold parse_conditions chain_tokens chain_fold
  have h1 := parse_condition_leaf [] (chain_steps_tokens steps ++ [⟨.EOF, "", 0⟩]) first
  simp only [List.nil_append, List.length_nil, Nat.zero_add] at h1
  rw [h1]
  dsimp only
  have hlen : (leaf_tokens first ++ (chain_steps_tokens steps ++ [(⟨.EOF, "", 0⟩ : Token)])).length =
      4 + 4 * steps.length := by
    simp [leaf_tokens, chain_steps_tokens_length]
    omega
  have h3 : (3 : Nat) = (leaf_tokens first).length := by simp [leaf_tokens]
  rw [hlen, h3, parse_conditions_loop_chain steps (leaf_tokens first)
    (4 + 4 * steps.length + 1) (leaf_cond first) (by omega)]

theorem parse_conditions_left_fold_witness :
    parse_conditions
        [⟨.Identifier, "a", 0⟩, ⟨.Operator, "=", 0⟩, ⟨.NumericLiteral, "1", 0⟩,
         ⟨.Keyword, "OR", 0⟩, ⟨.Identifier, "b", 0⟩, ⟨.Operator, "=", 0⟩,
         ⟨.NumericLiteral, "2", 0⟩, ⟨.Keyword, "AND", 0⟩, ⟨.Identifier, "c", 0⟩,
         ⟨.Operator, "=", 0⟩, ⟨.NumericLiteral, "3", 0⟩, ⟨.EOF, "", 0⟩] 0 =
      .ok ([.And (.Or (.Equal "a" (.Integer 1)) (.Equal "b" (.Integer 2)))
        (.Equal "c" (.Integer 3))], 11) := by
  have h := parse_conditions_left_fold ⟨"a", .CEq, ⟨.NumericLiteral, "1", 0⟩⟩
    [(false, ⟨"b", .CEq, ⟨.NumericLiteral, "2", 0⟩⟩),
     (true, ⟨"c", .CEq, ⟨.NumericLiteral, "3", 0⟩⟩)]
  exact h

/-! ## Claim C4: projection guard and per-row ColumnNotFound -/

/-- The schema positions of the requested names ((last occurrence wins, as in
the `col_indices` HashMap), or `none` when some name is absent. -/
def requested_positions (columns : List Column) : List String → Option (List Nat)
  | [] => some []
  | cn :: rest =>
    match last_index_of columns cn with
    | none => none
    | some i =>
      match requested_positions columns rest with
      | none => none
      | some is => some (i :: is)

/-- The first requested name absent from the schema, if any. -/
def first_absent (columns : List Column) : List String → Option String
  | [] => none
  | cn :: rest =>
    match last_index_of columns cn with
    | none => some cn
    | some _ => first_absent columns rest

theorem project_row_positions (columns : List Column) (requested : List String)
    (is : List Nat) (row : Row)
    (h : requested_positions columns requested = some is) :
    project_row columns requested row = .ok (is.map (fun i => row.getD i Value.Null)) := by
  induction requested generalizing is with
  | nil =>
    simp only [requested_positions, Option.some.injEq] at h
    subst h
    rfl
  | cons cn rest ih =>
    simp only [requested_positions] at h
    cases hcn : last_index_of columns cn with
    | none => rw [hcn] at h; exact Option.noConfusion h
    | some i =>
      rw [hcn] at h
      cases hrest : requested_positions columns rest with
      | none => rw [hrest] at h; exact Option.noConfusion h
      | some is2 =>
        rw [hrest] at h
        simp only [Option.some.injEq] at h
        subst h
        simp only [project_row, hcn, ih is2 hrest, List.map_cons]

theorem project_row_absent (columns : List Column) (requested : List String)
    (cn : String) (row : Row)
    (h : first_absent columns requested = some cn) :
    project_row columns requested row = .error (.ColumnNotFound cn) := by
  induction requested with
  | nil => exact Option.noConfusion h
  | cons c0 rest ih =>
    simp only [first_absent] at h
    cases hc0 : last_index_of columns c0 with
    | none =>
      rw [hc0] at h
      simp only [Option.some.injEq] at h
      subst h
      simp only [project_row, hc0]
    | some i =>
      rw [hc0] at h
      simp only [project_row, hc0, ih h]

theorem project_rows_positions (columns : List Column) (requested : List String)
    (is : List Nat) (rows : List Row)
    (h : requested_positions columns requested = some is) :
    project_rows columns requested rows =
      .ok (rows.map (fun row => is.map (fun i => row.getD i Value.Null))) := by
  induction rows with
  | nil => rfl
  | cons r rs ih =>
    simp only [project_rows, project_row_positions columns requested is r h, ih,
      List.map_cons]

def c4_table : Table :=
  ⟨[⟨"a", .Integer⟩, ⟨"b", .Integer⟩], 1, [], [[.Integer 1, .Integer 2]]⟩

def c4_empty : Table :=
  ⟨[⟨"a", .Integer⟩, ⟨"b", .Integer⟩], 0, [], []⟩

/-- C4 counterexample: the projection guard tests only the FIRST requested
name, so `["*", "b"]` — which is not exactly `["*"]` — is returned
unprojected (the claim would demand projection or a ColumnNotFound for
`"*"`); and an absent requested name (`"zzz"`) on a table whose scan yields
no rows returns `Ok []` instead of failing the whole call with
ColumnNotFound, because the projection loop only runs per result row. -/
theorem projection_star_guard_counterexample :
    get_rows c4_table ["*", "b"] none none none = .ok [[.Integer 1, .Integer 2]] ∧
    get_rows c4_empty ["zzz"] none none none = .ok [] := by
  constructor <;> decide

/-- C4 (amended): projection is skipped exactly when the requested list is
empty or its FIRST element is `"*"` (not only when the list is exactly
`["*"]`); otherwise each returned row is the scanned row's values at the
requested names' schema positions (last occurrence winning), in requested
order, when every name is present; a requested name absent from the schema
fails the call with ColumnNotFound only when at least one row survives the
scan — an empty scan result is returned as `Ok []` unprojected-and-unchecked. -/
theorem projection_star_guard_amended (tbl : Table) (requested : List String)
    (conditions : Option (List Condition)) (order_by : Option OrderBy)
    (limit : Option Nat) (rows : List Row)
    (hscan : sorted_rows tbl conditions order_by limit = .ok rows) :
    ((requested = [] ∨ requested.head? = some "*") →
      get_rows tbl requested conditions order_by limit = .ok rows) ∧
    (requested ≠ [] → requested.head? ≠ some "*" →
      (∀ is, requested_positions tbl.columns requested = some is →
        get_rows tbl requested conditions order_by limit =
          .ok (rows.map (fun row => is.map (fun i => row.getD i Value.Null)))) ∧
      (∀ cn, first_absent tbl.columns requested = some cn →
        (rows = [] → get_rows tbl requested conditions order_by limit = .ok []) ∧
        (rows ≠ [] → get_rows tbl requested conditions order_by limit =
          .error (.ColumnNotFound cn)))) := by
  unfold get_rows
  rw [hscan]
  dsimp only
  constructor
  · rintro (h | h)
    · subst h
      rfl
    · cases requested with
      | nil => exact Option.noConfusion h
      | cons c0 rest =>
        simp only [List.head?_cons, Option.some.injEq] at h
        subst h
        simp
  · intro hne hstar
    cases requested with
    | nil => exact absurd rfl hne
    | cons c0 rest =>
      dsimp only
      have hc0 : (c0 == "*") = false := by
        rw [beq_eq_false_iff_ne]
        intro he
        exact hstar (by rw [List.head?_cons, he])
      rw [hc0]
      simp only [Bool.false_eq_true, if_false]
      constructor
      · intro is his
        exact project_rows_positions tbl.columns (c0 :: rest) is rows his
      · intro cn hcn
        constructor
        · intro h0
          subst h0
          rfl
        · intro hne2
          cases rows with
          | nil => exact absurd rfl hne2
          | cons r rs =>
            simp only [project_rows,
              project_row_absent tbl.columns (c0 :: rest) cn r hcn]

theorem projection_star_guard_amended_witness :
    get_rows c4_table ["b", "a"] none none none =
      .ok [[.Integer 2, .Integer 1]] := by
  have h := (projection_star_guard_amended c4_table ["b", "a"] none none none
    [[.Integer 1, .Integer 2]] (by decide)).2 (by decide) (by decide)
  exact h.1 [1, 0] (by decide)

/-! ## Claim C8: unterminated string literals -/

theorem quote_not_ws (q : Char) (hq : q = Char.ofNat 39 ∨ q = '"') :
    q.isWhitespace = false := by
  rcases hq with h | h <;> rw [h] <;> decide

theorem quote_not_dash_start (q : Char) (tail : List Char)
    (hq : q = Char.ofNat 39 ∨ q = '"') :
    (List.isPrefixOf ['-', '-'] (q :: tail)) = false := by
  rcases hq with h | h <;> rw [h] <;>
    simp [List.isPrefixOf]

/-- C8: whenever the scanner reaches a position `pos` holding an opening
single or double quote whose literal runs to end of input with no unescaped
matching close quote (backslash escaping the next character), tokenization
fails with `UnterminatedString pos` — for any remaining fuel and any tokens
accumulated so far, which are all discarded; in particular an input starting
with such a literal makes `tokenize` (hence `Parser::new`) return the error
and no token list. -/
theorem tokenize_unterminated_string (input tail : List Char) (q : Char) (pos : Nat)
    (hq : q = Char.ofNat 39 ∨ q = '"')
    (hrem : input.drop pos = q :: tail)
    (hscan : scan_string q tail false = none) :
    (∀ fuel acc, tokenize_loop input (fuel + 1) pos acc =
        .error (.UnterminatedString pos)) ∧
    (pos = 0 → tokenize input = .error (.UnterminatedString 0)) := by
  have hlt : pos < input.length := by
    by_contra h
    rw [List.drop_eq_nil_of_le (by omega)] at hrem
    exact List.noConfusion hrem
  have hmain : ∀ fuel acc, tokenize_loop input (fuel + 1) pos acc =
      .error (.UnterminatedString pos) := by
    intro fuel acc
    simp only [tokenize_loop]
    rw [if_neg (by omega)]
    simp only [hrem]
    rw [show findNonWs (q :: tail) = some 0 from by
      simp [findNonWs, quote_not_ws q hq]]
    dsimp only
    rw [if_neg (by simp [quote_not_dash_start q tail hq])]
    rw [if_pos (by
      rcases hq with h | h <;> rw [h] <;> simp only [List.headD_cons] <;> decide)]
    simp only [List.headD_cons, List.drop_succ_cons, List.drop_zero, hscan]
  exact ⟨hmain, fun h0 => by
    subst h0
    exact hmain input.length []⟩

theorem tokenize_unterminated_string_witness :
    tokenize [Char.ofNat 39, 'a', 'b'] = .error (.UnterminatedString 0) :=
  (tokenize_unterminated_string [Char.ofNat 39, 'a', 'b'] ['a', 'b']
    (Char.ofNat 39) 0 (Or.inl rfl) rfl (by decide)).2 rfl

end Scythe
